import Mathlib

/-!
Verification of the pseudoprimes repository core: factored integers and
divisor enumeration (factorization.py), the partitioned divisor iterator
(partitioned_divisors_iterator.py), the Fellows-Koblitz primality prover
(fellows_koblitz.py) and the Erdos prime-set constructors
(erdos_construction.py, erdos_construction_varient.py).

Factorizations are modelled as association lists `List (ℕ × ℕ)` of
(prime, exponent) pairs, mirroring the Python dict with its insertion
order.  A `Factorization` object in canonical form (the only form the
constructor produces) is strictly sorted by prime with positive
exponents; the predicate `Pseudoprimes.WF` captures the constructor's
validation (`__validate` uses trial-division primality on every key)
together with the normalisation performed by `__to_standard_form`.

Python exceptions and divergence are modelled with `Option`: a `none`
result marks a raised exception (or an infinite loop), `some x` a normal
return of `x`.
-/

namespace Pseudoprimes

/-- Executable floor square root (`math.isqrt`): count up while the next
square still fits.  Written with explicit fuel so the kernel can evaluate it;
`isqrt_eq` identifies it with `Nat.sqrt`. -/
def isqrtGo (n : ℕ) : ℕ → ℕ → ℕ
  | 0, m => m
  | fuel + 1, m => if (m + 1) * (m + 1) ≤ n then isqrtGo n fuel (m + 1) else m

/-- Floor square root, kernel-computable. -/
def isqrt (n : ℕ) : ℕ := isqrtGo n n 0

/-- Model of `trial_division.is_prime`: handle n < 2, n = 2 and even n, then
trial-divide by the odd numbers `range(3, isqrt(n) + 1, 2)`; the Python range
has `(isqrt(n) + 1 - 2) / 2` elements. -/
def trial_is_prime (n : ℕ) : Bool :=
  if n < 2 then false
  else if n = 2 then true
  else if n % 2 = 0 then false
  else (List.range' 3 ((isqrt n + 1 - 2) / 2) 2).all (fun d => n % d != 0)

/-- Model of `integers.sub_mod`: `(a - b) mod n` normalised into `[0, n)`
(the Python code computes `a % n - b % n` and adds `n` when negative). -/
def sub_mod (a b n : ℕ) : ℕ :=
  if b % n ≤ a % n then a % n - b % n else a % n + n - b % n

/-- One Newton step plus the loop of `integers.int_root`, with explicit fuel
(the Python `while True` loop; the fuel `n + 1` used by `int_root` dominates
the strictly decreasing iterate, so it is never exhausted on real runs). -/
def int_root_aux (n k : ℕ) : ℕ → ℕ → ℕ
  | 0, s => s
  | fuel + 1, u =>
    let s := u
    let t := (k - 1) * s + n / s ^ (k - 1)
    let u' := t / k
    if s ≤ u' then s else int_root_aux n k fuel u'

/-- Model of `integers.int_root`: floor of the k-th root of n by Newton
iteration started at `u = n`. -/
def int_root (n k : ℕ) : ℕ := int_root_aux n k (n + 1) n

/-- A factorization as stored by `Factorization`: the dict mapping primes to
exponents, as an association list in insertion order. -/
abbrev FactorsList := List (ℕ × ℕ)

/-- Exponent of `p` in the mapping (0 when `p` is not a key), i.e.
`factors.get(p, 0)`. -/
def expOf (l : FactorsList) (p : ℕ) : ℕ := (l.lookup p).getD 0

/-- Model of `Factorization.has_prime_divisor` / Python `p in factors`:
key membership. -/
def containsKey (l : FactorsList) (p : ℕ) : Bool := l.any (fun pe => pe.1 == p)

/-- Model of `Factorization.__int__`: the product `Π prime ^ exponent`. -/
def value (l : FactorsList) : ℕ := (l.map (fun pe => pe.1 ^ pe.2)).prod

/-- Insert a pair into a list sorted by key, keeping it sorted (helper for
the model of Python's `sorted`). -/
def insertByKey (x : ℕ × ℕ) : FactorsList → FactorsList
  | [] => [x]
  | y :: l => if x.1 ≤ y.1 then x :: y :: l else y :: insertByKey x l

/-- Sort an association list by key (Python's `sorted(factors.items())`;
with the unique keys of a dict this is exactly the sort by prime). -/
def sortByKey (l : FactorsList) : FactorsList := l.foldr insertByKey []

/-- Model of `Factorization.__to_standard_form`: sort by prime and drop
zero exponents. -/
def standardForm (l : FactorsList) : FactorsList :=
  (sortByKey l).filter (fun pe => pe.2 != 0)

/-- Executable check that the keys are strictly ascending. -/
def chainKeysLT : FactorsList → Bool
  | [] => true
  | [_] => true
  | x :: y :: l => decide (x.1 < y.1) && chainKeysLT (y :: l)

/-- The invariant of a constructed `Factorization`: strictly ascending prime
keys, positive exponents, and every key accepted by the constructor's
`__validate` (trial-division primality). -/
def WF (l : FactorsList) : Prop :=
  chainKeysLT l = true ∧ ∀ pe ∈ l, 0 < pe.2 ∧ trial_is_prime pe.1 = true

instance (l : FactorsList) : Decidable (WF l) :=
  inferInstanceAs (Decidable (chainKeysLT l = true ∧
    ∀ pe ∈ l, 0 < pe.2 ∧ trial_is_prime pe.1 = true))

/-- Model of `factorization.lcm`: entrywise max over the union of the keys,
fed through the constructor's normalisation. -/
def lcmFactors (a b : FactorsList) : FactorsList :=
  standardForm (((a.map Prod.fst) ++ (b.map Prod.fst).filter
      (fun p => !containsKey a p)).map
    (fun p => (p, max (expOf a p) (expOf b p))))

/-- One step of the loop in `Factorization.__mul__`: add `pe`'s exponent to
an existing key or append a new key. -/
def addEntry (acc : FactorsList) (pe : ℕ × ℕ) : FactorsList :=
  if containsKey acc pe.1 then
    acc.map (fun x => if x.1 == pe.1 then (x.1, x.2 + pe.2) else x)
  else acc ++ [pe]

/-- The exponent dict built by `Factorization.__mul__`: a copy of `self`'s
dict, folded over `other`'s entries. -/
def mulFactors (a b : FactorsList) : FactorsList := b.foldl addEntry a

/-- Model of `Factorization.__mul__` composed with the constructor: the merged
dict, normalised. -/
def fmul (a b : FactorsList) : FactorsList := standardForm (mulFactors a b)

/-- The list of prime keys of the mapping (`Factorization.primes`). -/
def keys (l : FactorsList) : List ℕ := l.map Prod.fst

instance : IsTrans (ℕ × ℕ) (fun x y => x.1 < y.1) :=
  ⟨fun _ _ _ h₁ h₂ => Nat.lt_trans h₁ h₂⟩

/-- Canonical shape (without the primality of keys): strictly ascending keys
and positive exponents. -/
def Canon (l : FactorsList) : Prop :=
  l.Pairwise (fun x y => x.1 < y.1) ∧ ∀ pe ∈ l, 0 < pe.2

/-!
### Divisor enumeration (`DivisorsIterator`)

The iterator keeps the primes and exponents of its source and a list of
per-prime counters, `None` before the first call.  `__next__` scans the
counters from index 0: the first counter below its maximum is incremented
(all earlier ones having been reset to 0 on the way); if every counter is
maximal they have all been reset to 0 by the time `StopIteration` is
raised.
-/

/-- The counter update of `DivisorsIterator.__next__`: given counters and
maximal exponents, increment the first counter below its maximum, zeroing the
ones before it; `none` when every counter is maximal (`StopIteration`), in
which case the mutated counter list is all zeros. -/
def stepCounters : List ℕ → List ℕ → Option (List ℕ)
  | c :: cs, e :: es =>
    if c < e then some ((c + 1) :: cs) else (stepCounters cs es).map (fun l => 0 :: l)
  | _, _ => none

/-- All-zero counters (the first divisor, representing 1). -/
def zerosOf (es : List ℕ) : List ℕ := es.map (fun _ => 0)

/-- One call of `DivisorsIterator.__next__` on the counter state (`none`
before the first call).  Output `none` models `StopIteration`; the second
component is the mutated state, which on exhaustion has been reset to all
zeros by the scan. -/
def divNext (es : List ℕ) : Option (List ℕ) → Option (List ℕ) × Option (List ℕ)
  | none => (some (zerosOf es), some (zerosOf es))
  | some cs =>
    match stepCounters cs es with
    | some cs' => (some cs', some cs')
    | none => (none, some (zerosOf es))

/-- The outputs of `k` successive `__next__` calls starting from a state. -/
def runIter (es : List ℕ) : ℕ → Option (List ℕ) → List (Option (List ℕ))
  | 0, _ => []
  | k + 1, st => (divNext es st).1 :: runIter es k (divNext es st).2

/-- `(e1+1) * ... * (ek+1)` over an exponent list. -/
def countN (es : List ℕ) : ℕ := (es.map (fun e => e + 1)).prod

/-- Model of `Factorization.divisors_count`: the running product of
`exponent + 1`. -/
def divisors_count (F : FactorsList) : ℕ :=
  F.foldl (fun acc pe => acc * (pe.2 + 1)) 1

/-- The successful outputs of the iterator after the first one: iterate
`stepCounters` and collect. -/
def odoSteps (es : List ℕ) : ℕ → List ℕ → List (List ℕ)
  | 0, _ => []
  | k + 1, cs =>
    match stepCounters cs es with
    | some cs' => cs' :: odoSteps es k cs'
    | none => []

/-- The full list of counter vectors emitted by one exhaustion of the
iterator: the zero vector followed by the successor chain. -/
def odoTrace (es : List ℕ) : List (List ℕ) :=
  zerosOf es :: odoSteps es (countN es - 1) (zerosOf es)

/-- Mixed-radix rank of a counter vector, lowest index least significant
(index 0 cycles fastest in the iterator). -/
def vecRank : List ℕ → List ℕ → ℕ
  | c :: cs, e :: es => c + (e + 1) * vecRank cs es
  | _, _ => 0

/-- `DivisorsIterator.__build_factors` composed with the `Factorization`
constructor: the dict `{primes[i]: counters[i]}`, normalised. -/
def buildFactors (ps cs : List ℕ) : FactorsList := standardForm (ps.zip cs)

/-- Model of `Factorization.divisors`, i.e. `list(DivisorsIterator(self))`:
the outputs collected until the first `StopIteration` (`runIter_trace` links
this list to the iterator's calls). -/
def divisorsList (F : FactorsList) : List FactorsList :=
  (odoTrace (F.map Prod.snd)).map (buildFactors (F.map Prod.fst))

/-- Model of `lists.split_equally`: the `sublists_count` Python slices
`values[i*base_size + min(i, remainder) : (i+1)*base_size + min(i+1, remainder)]`. -/
def split_equally {α : Type} (values : List α) (sublists_count : ℕ) : List (List α) :=
  let base_size := values.length / sublists_count
  let remainder := values.length % sublists_count
  (List.range sublists_count).map (fun i =>
    (values.drop (i * base_size + min i remainder)).take
      ((i + 1) * base_size + min (i + 1) remainder - (i * base_size + min i remainder)))

/-- The scan of `PartitionedDivisorsIterator.__get_partition_keys_index`:
running product of `exponent + 1` until it reaches the partition count. -/
def partitionKeysIndexGo (K : ℕ) : ℕ → ℕ → List ℕ → Option ℕ
  | _, _, [] => none
  | product, index, e :: rest =>
    if K ≤ product * (e + 1) then some index
    else partitionKeysIndexGo K (product * (e + 1)) (index + 1) rest

/-- Model of `__get_partition_keys_index`: `none` models the implicit `None`
return when the running product never reaches `K` (the caller then evaluates
`None + 1` and raises `TypeError`). -/
def partitionKeysIndex (exponents : List ℕ) (K : ℕ) : Option ℕ :=
  partitionKeysIndexGo K 1 0 exponents

/-- Python dict union `a | b` as used in `PartitionedDivisorsIterator.__iter__`:
`a`'s keys in order (with `b`'s value on a shared key) followed by `b`'s new
keys. -/
def dictOr (a b : FactorsList) : FactorsList :=
  a.map (fun pe => if containsKey b pe.1 then (pe.1, expOf b pe.1) else pe) ++
    b.filter (fun pe => !containsKey a pe.1)

/-- Model of `PartitionedDivisorsIterator`: `none` is the `TypeError` raised
in the constructor when `__get_partition_keys_index` returns `None`;
otherwise the list of divisors yielded by `__iter__` for partition `i` of
`K` (key divisors of the prefix, sliced by `split_equally`, each combined
with every divisor of the remainder). -/
def partIter (F : FactorsList) (i K : ℕ) : Option (List FactorsList) :=
  match partitionKeysIndex (F.map Prod.snd) K with
  | none => none
  | some idx =>
    some (((split_equally (divisorsList (F.take (idx + 1))) K).getD i []).flatMap
      (fun kd => (divisorsList (F.drop (idx + 1))).map
        (fun rd => standardForm (dictOr kd rd))))

/-!
### Fellows-Koblitz prover (`fellows_koblitz.py`)

The witness bound `math.floor(math.log(n) ** 2)` is a floating-point
computation; it enters the model as an explicit parameter `B` (the loop is
`for a in range(2, B + 1)`), so that theorems hold for every value the
float computation can produce.  For n ≥ 5 the real bound satisfies
`2 ≤ B < n`.
-/

/-- The `while t != 1` loop of `__get_order_exponent` with explicit fuel;
each pass replaces `t` by `t^prime mod n`.  The fuel `n + 1` used by
`getOrderExponent` dominates every terminating run (the count is at most
log₂ of the multiplicative order), so `none` models an infinite loop. -/
def orderExpLoop (n q : ℕ) : ℕ → ℕ → ℕ → Option ℕ
  | 0, _, _ => none
  | fuel + 1, t, g => if t = 1 then some g else orderExpLoop n q fuel (t ^ q % n) (g + 1)

/-- Model of `__get_order_exponent`: start from
`t = a^((n-1) // prime^exponent) mod n` and count the `prime`-th-power steps
to reach 1. -/
def getOrderExponent (a n q e : ℕ) : Option ℕ :=
  orderExpLoop n q (n + 1) (a ^ ((n - 1) / q ^ e) % n) 0

/-- The dict comprehension of `fellows_koblitz.order`: one order exponent per
prime of the supplied factorization; `none` as soon as one diverges. -/
def orderEntries (a n : ℕ) : FactorsList → Option FactorsList
  | [] => some []
  | (q, e) :: rest =>
    match getOrderExponent a n q e, orderEntries a n rest with
    | some g, some r => some ((q, g) :: r)
    | _, _ => none

/-- Model of `fellows_koblitz.order`: the order dict fed through the
`Factorization` constructor. -/
def orderFac (a n : ℕ) (factorization : FactorsList) : Option FactorsList :=
  (orderEntries a n factorization).map standardForm

/-- The witness loop of `fellows_koblitz.is_prime` over the remaining
witnesses, threading the accumulated lcm `h` (`none` is Python's `None`).
After the loop the Python code evaluates `int(h) >= isqrt(n) + 1`; when `h`
is still `None` that raises `TypeError` (`none`). -/
def fkLoop (n : ℕ) (fac : FactorsList) : List ℕ → Option FactorsList → Option Bool
  | [], h =>
    match h with
    | none => none
    | some hf => some (decide (isqrt n + 1 ≤ value hf))
  | a :: as, h =>
    if a ^ (n - 1) % n ≠ 1 then some false
    else
      match orderFac a n fac with
      | none => none
      | some odf =>
        if (keys odf).any
            (fun q => decide (1 < Nat.gcd (sub_mod (a ^ (value odf / q) % n) 1 n) n))
        then some false
        else fkLoop n fac as (some (match h with
          | none => odf
          | some hf => lcmFactors hf odf))

/-- Model of `fellows_koblitz.is_prime` with the witness bound `B` for
`math.floor(math.log(n) ** 2)`; `range(2, B + 1)` is `List.range' 2 (B - 1)`. -/
def fk_is_prime (n : ℕ) (factorization : FactorsList) (B : ℕ) : Option Bool :=
  if n = 2 ∨ n = 3 then some true
  else if n < 2 ∨ n % 2 = 0 then some false
  else fkLoop n factorization (List.range' 2 (B - 1)) none

/-!
### Erdos constructions (`erdos_construction.py`, `erdos_construction_varient.py`)
-/

/-- Model of `erdos_construction.build_primes_set`: for every divisor d of
the factorization keep p = d+1 when p passes trial division and is not a
prime divisor of the factorization.  The Python set is represented by the
list of retained primes in iteration order (all divisors are distinct, so
no collapsing occurs). -/
def build_primes_set (factorization : FactorsList) : List ℕ :=
  ((divisorsList factorization).map (fun d => value d + 1)).filter
    (fun p => trial_is_prime p && !containsKey factorization p)

/-- Behaviour of `fellows_koblitz.is_prime` when
`erdos_construction_varient.build_primes_set` passes a plain `int` as the
factorization argument (its `map(int, ...)`): for odd n ≥ 5 the witness
range is nonempty (`floor(log(n)**2) ≥ 2` once n ≥ 5), so witness a = 2
either fails the Fermat test (returning False) or reaches `order(...)`,
which calls `.primes()` on the int and raises `AttributeError` (`none`). -/
def fk_is_prime_int_arg (n : ℕ) : Option Bool :=
  if n = 2 ∨ n = 3 then some true
  else if n < 2 ∨ n % 2 = 0 then some false
  else if 2 ^ (n - 1) % n ≠ 1 then some false
  else none

/-- Model of `_generate_divisors_less_than` at the level of divisor values
(its caller immediately maps the yielded factorizations through `int`): the
head prime's exponent starts at 1 when that prime is 2, and the loop breaks
at the first power reaching the limit (`takeWhile`, as the powers are
increasing). -/
def generateDivisorsLessThan : FactorsList → ℕ → List ℕ
  | [], limit => if 1 < limit then [1] else []
  | (p, e) :: rest, limit =>
    ((List.range' (if p = 2 then 1 else 0) (if p = 2 then e else e + 1)).takeWhile
      (fun i => decide (p ^ i < limit))).flatMap
      (fun i => (generateDivisorsLessThan rest (limit / p ^ i)).map (fun d => p ^ i * d))

/-- `_is_valid_prime` for the unpartitioned variant, where `divisor` is an
`int`: key-divisibility test, the order-r divisibility conditions, then the
Fellows-Koblitz call on the int argument. -/
def isValidPrimeInt (factorization : FactorsList) (k lvalue divisor : ℕ) : Option Bool :=
  if containsKey factorization (divisor + 1) then some false
  else if (List.range' 1 k).all
      (fun r => decide (lvalue % ((divisor + 1) ^ r - 1) = 0)) then
    fk_is_prime_int_arg (divisor + 1)
  else some false

/-- `_build_primes_set_for_divisors` over int divisors; `none` as soon as
one divisor's validity check raises. -/
def collectPrimesInt (factorization : FactorsList) (k lvalue : ℕ) :
    List ℕ → Option (List ℕ)
  | [] => some []
  | d :: ds =>
    match isValidPrimeInt factorization k lvalue d with
    | none => none
    | some b =>
      (collectPrimesInt factorization k lvalue ds).map
        (fun rest => if b then (d + 1) :: rest else rest)

/-- Model of `erdos_construction_varient.build_primes_set`: divisors below
the k-th integer root of the value, checked by `_is_valid_prime` with the
int-typed divisor. -/
def build_primes_set_variant (factorization : FactorsList) (k : ℕ) :
    Option (List ℕ) :=
  collectPrimesInt factorization k (value factorization)
    (generateDivisorsLessThan factorization (int_root (value factorization) k))

/-- `_is_valid_prime` for the partitioned variant, where `divisor` is a
`Factorization`; `B` supplies the Fellows-Koblitz witness bound
`floor(log(p)**2)` for each tested p. -/
def isValidPrimeFac (factorization : FactorsList) (k lvalue : ℕ) (B : ℕ → ℕ)
    (d : FactorsList) : Option Bool :=
  if containsKey factorization (value d + 1) then some false
  else if (List.range' 1 k).all
      (fun r => decide (lvalue % ((value d + 1) ^ r - 1) = 0)) then
    fk_is_prime (value d + 1) d (B (value d + 1))
  else some false

/-- `_build_primes_set_for_divisors` over Factorization divisors. -/
def collectPrimesFac (factorization : FactorsList) (k lvalue : ℕ) (B : ℕ → ℕ) :
    List FactorsList → Option (List ℕ)
  | [] => some []
  | d :: ds =>
    match isValidPrimeFac factorization k lvalue B d with
    | none => none
    | some b =>
      (collectPrimesFac factorization k lvalue B ds).map
        (fun rest => if b then (value d + 1) :: rest else rest)

/-- Model of `erdos_construction_varient.build_primes_set_partition`:
divisors come from the partitioned iterator (no root bound), checked by
`_is_valid_prime` with the Factorization-typed divisor. -/
def build_primes_set_partition (factorization : FactorsList) (k i K : ℕ)
    (B : ℕ → ℕ) : Option (List ℕ) :=
  match partIter factorization i K with
  | none => none
  | some ds => collectPrimesFac factorization k (value factorization) B ds

theorem isqrtGo_eq (n : ℕ) : ∀ fuel m, m * m ≤ n → Nat.sqrt n ≤ fuel + m →
    isqrtGo n fuel m = Nat.sqrt n := by
  intro fuel
  induction fuel with
  | zero =>
    intro m hm hs
    simp only [Nat.zero_add] at hs
    show m = Nat.sqrt n
    exact Nat.le_antisymm (Nat.le_sqrt.mpr hm) hs
  | succ fuel ih =>
    intro m hm hs
    unfold isqrtGo
    by_cases h : (m + 1) * (m + 1) ≤ n
    · rw [if_pos h]
      exact ih (m + 1) h (by omega)
    · rw [if_neg h]
      have h1 : Nat.sqrt n < m + 1 := Nat.sqrt_lt.mpr (by omega)
      exact Nat.le_antisymm (Nat.le_sqrt.mpr hm) (by omega)

theorem isqrt_eq (n : ℕ) : isqrt n = Nat.sqrt n :=
  isqrtGo_eq n n 0 (Nat.zero_le n) (by simpa using Nat.sqrt_le_self n)

theorem chainKeysLT_iff : ∀ l : FactorsList,
    chainKeysLT l = true ↔ l.Chain' (fun x y => x.1 < y.1)
  | [] => by simp [chainKeysLT]
  | [x] => by simp [chainKeysLT]
  | x :: y :: l => by
    rw [List.chain'_cons]
    unfold chainKeysLT
    rw [Bool.and_eq_true, decide_eq_true_iff]
    exact and_congr Iff.rfl (chainKeysLT_iff (y :: l))

theorem expOf_nil (p : ℕ) : expOf [] p = 0 := rfl

theorem expOf_cons (q f p : ℕ) (l : FactorsList) :
    expOf ((q, f) :: l) p = if p = q then f else expOf l p := by
  by_cases h : p = q
  · subst h
    simp [expOf, List.lookup_cons]
  · have hb : (p == q) = false := beq_eq_false_iff_ne.mpr h
    simp [expOf, List.lookup_cons, hb, h]

theorem expOf_eq_zero_of_not_mem {l : FactorsList} {p : ℕ} (h : p ∉ keys l) :
    expOf l p = 0 := by
  induction l with
  | nil => rfl
  | cons x t ih =>
    obtain ⟨q, f⟩ := x
    simp only [keys, List.map_cons, List.mem_cons, not_or] at h
    rw [expOf_cons, if_neg h.1]
    exact ih (by simpa [keys] using h.2)

theorem mem_keys_of_expOf_ne_zero {l : FactorsList} {p : ℕ} (h : expOf l p ≠ 0) :
    p ∈ keys l := by
  by_contra hmem
  exact h (expOf_eq_zero_of_not_mem hmem)

theorem containsKey_iff (l : FactorsList) (p : ℕ) :
    containsKey l p = true ↔ p ∈ keys l := by
  simp only [containsKey, List.any_eq_true, beq_iff_eq, keys, List.mem_map]

theorem insertByKey_perm (x : ℕ × ℕ) (l : FactorsList) :
    (insertByKey x l).Perm (x :: l) := by
  induction l with
  | nil => exact List.Perm.refl _
  | cons y t ih =>
    unfold insertByKey
    by_cases h : x.1 ≤ y.1
    · rw [if_pos h]
    · rw [if_neg h]
      exact (ih.cons y).trans (List.Perm.swap x y t)

theorem sortByKey_perm (l : FactorsList) : (sortByKey l).Perm l := by
  induction l with
  | nil => exact List.Perm.refl _
  | cons x t ih => exact (insertByKey_perm x (sortByKey t)).trans (ih.cons x)

theorem expOf_insertByKey (x : ℕ × ℕ) (l : FactorsList) (p : ℕ) :
    expOf (insertByKey x l) p = expOf (x :: l) p := by
  induction l with
  | nil => rfl
  | cons y t ih =>
    obtain ⟨qx, fx⟩ := x
    obtain ⟨qy, fy⟩ := y
    unfold insertByKey
    by_cases h : qx ≤ qy
    · rw [if_pos h]
    · rw [if_neg h]
      simp only at h
      rw [expOf_cons, ih, expOf_cons, expOf_cons, expOf_cons]
      by_cases hpy : p = qy
      · rw [if_pos hpy, if_neg (by omega), if_pos hpy]
      · rw [if_neg hpy, if_neg hpy]

theorem expOf_sortByKey (l : FactorsList) (p : ℕ) :
    expOf (sortByKey l) p = expOf l p := by
  induction l with
  | nil => rfl
  | cons x t ih =>
    show expOf (insertByKey x (sortByKey t)) p = _
    rw [expOf_insertByKey]
    obtain ⟨q, f⟩ := x
    rw [expOf_cons, expOf_cons, ih]

theorem insertByKey_pairwise {x : ℕ × ℕ} {l : FactorsList}
    (h : l.Pairwise (fun a b => a.1 ≤ b.1)) :
    (insertByKey x l).Pairwise (fun a b => a.1 ≤ b.1) := by
  induction l with
  | nil => simp [insertByKey]
  | cons y t ih =>
    rw [List.pairwise_cons] at h
    unfold insertByKey
    by_cases hle : x.1 ≤ y.1
    · rw [if_pos hle]
      refine List.pairwise_cons.mpr ⟨?_, List.pairwise_cons.mpr h⟩
      intro z hz
      rcases List.mem_cons.mp hz with rfl | hz
      · exact hle
      · exact le_trans hle (h.1 z hz)
    · rw [if_neg hle]
      refine List.pairwise_cons.mpr ⟨?_, ih h.2⟩
      intro z hz
      have hz' := (insertByKey_perm x t).mem_iff.mp hz
      rcases List.mem_cons.mp hz' with rfl | hz'
      · omega
      · exact h.1 z hz'

theorem sortByKey_pairwise (l : FactorsList) :
    (sortByKey l).Pairwise (fun a b => a.1 ≤ b.1) := by
  induction l with
  | nil => simp [sortByKey]
  | cons x t ih => exact insertByKey_pairwise ih

theorem keys_nodup_of_perm {l l' : FactorsList} (h : l.Perm l')
    (hn : (keys l).Nodup) : (keys l').Nodup :=
  ((h.map Prod.fst).nodup_iff).mp hn

theorem standardForm_sub (l : FactorsList) : ∀ pe ∈ standardForm l, pe ∈ l := by
  intro pe hpe
  have h1 : pe ∈ sortByKey l := List.mem_of_mem_filter hpe
  exact (sortByKey_perm l).mem_iff.mp h1

theorem standardForm_canon {l : FactorsList} (h : (keys l).Nodup) :
    Canon (standardForm l) := by
  constructor
  · have hle := sortByKey_pairwise l
    have hnd : (keys (sortByKey l)).Nodup := keys_nodup_of_perm (sortByKey_perm l).symm h
    have hne : (sortByKey l).Pairwise (fun a b => a.1 ≠ b.1) := by
      have := (List.pairwise_map.mp hnd)
      exact this
    have hlt : (sortByKey l).Pairwise (fun a b => a.1 < b.1) := by
      have hco := hle.and hne
      exact hco.imp (fun hab => lt_of_le_of_ne hab.1 hab.2)
    exact hlt.filter _
  · intro pe hpe
    have := List.of_mem_filter hpe
    simpa using Nat.pos_of_ne_zero (by simpa using this)

theorem expOf_filter_pos {l : FactorsList} (h : (keys l).Nodup) (p : ℕ) :
    expOf (l.filter (fun pe => pe.2 != 0)) p = expOf l p := by
  induction l with
  | nil => rfl
  | cons x t ih =>
    obtain ⟨q, f⟩ := x
    simp only [keys, List.map_cons, List.nodup_cons] at h
    by_cases hf : f = 0
    · subst hf
      rw [List.filter_cons_of_neg (by simp)]
      rw [ih h.2, expOf_cons]
      by_cases hpq : p = q
      · subst hpq
        rw [if_pos rfl]
        exact expOf_eq_zero_of_not_mem (by simpa [keys] using h.1)
      · rw [if_neg hpq]
    · rw [List.filter_cons_of_pos (by simpa using hf)]
      rw [expOf_cons, expOf_cons, ih h.2]

theorem expOf_standardForm {l : FactorsList} (h : (keys l).Nodup) (p : ℕ) :
    expOf (standardForm l) p = expOf l p := by
  unfold standardForm
  rw [expOf_filter_pos (keys_nodup_of_perm (sortByKey_perm l).symm h), expOf_sortByKey]

theorem canon_head_not_mem {q f} {t : FactorsList}
    (h : Canon ((q, f) :: t)) : q ∉ keys t := by
  intro hmem
  obtain ⟨pe, hpe, hq⟩ := List.mem_map.mp hmem
  have := (List.pairwise_cons.mp h.1).1 pe hpe
  omega

theorem canon_ext : ∀ {l₁ l₂ : FactorsList}, Canon l₁ → Canon l₂ →
    (∀ p, expOf l₁ p = expOf l₂ p) → l₁ = l₂ := by
  intro l₁
  induction l₁ with
  | nil =>
    intro l₂ _ h₂ hexp
    cases l₂ with
    | nil => rfl
    | cons y t =>
      obtain ⟨q, f⟩ := y
      have h0 := (hexp q).symm
      rw [expOf_cons, if_pos rfl, expOf_nil] at h0
      have := h₂.2 (q, f) (by simp)
      omega
  | cons x t ih =>
    intro l₂ h₁ h₂ hexp
    obtain ⟨q, f⟩ := x
    cases l₂ with
    | nil =>
      have h0 := hexp q
      rw [expOf_cons, if_pos rfl, expOf_nil] at h0
      have := h₁.2 (q, f) (by simp)
      omega
    | cons y t₂ =>
      obtain ⟨q', f'⟩ := y
      have hq : q = q' := by
        by_contra hne
        rcases Nat.lt_or_ge q q' with hlt | hge
        · have h0 := hexp q
          rw [expOf_cons, if_pos rfl, expOf_cons, if_neg hne] at h0
          have hnot : q ∉ keys t₂ := by
            intro hmem
            obtain ⟨pe, hpe, hqe⟩ := List.mem_map.mp hmem
            have := (List.pairwise_cons.mp h₂.1).1 pe hpe
            omega
          rw [expOf_eq_zero_of_not_mem hnot] at h0
          have := h₁.2 (q, f) (by simp)
          omega
        · have hlt' : q' < q := by omega
          have h0 := (hexp q').symm
          rw [expOf_cons, if_pos rfl, expOf_cons, if_neg (by omega)] at h0
          have hnot : q' ∉ keys t := by
            intro hmem
            obtain ⟨pe, hpe, hqe⟩ := List.mem_map.mp hmem
            have := (List.pairwise_cons.mp h₁.1).1 pe hpe
            omega
          rw [expOf_eq_zero_of_not_mem hnot] at h0
          have := h₂.2 (q', f') (by simp)
          omega
      subst hq
      have hf : f = f' := by
        have h0 := hexp q
        rw [expOf_cons, if_pos rfl, expOf_cons, if_pos rfl] at h0
        exact h0
      subst hf
      have htail : t = t₂ := by
        refine ih ⟨(List.pairwise_cons.mp h₁.1).2, fun pe hpe => h₁.2 pe (by simp [hpe])⟩
          ⟨(List.pairwise_cons.mp h₂.1).2, fun pe hpe => h₂.2 pe (by simp [hpe])⟩ ?_
        intro p
        by_cases hpq : p = q
        · subst hpq
          rw [expOf_eq_zero_of_not_mem (canon_head_not_mem h₁),
            expOf_eq_zero_of_not_mem (canon_head_not_mem h₂)]
        · have h0 := hexp p
          rwa [expOf_cons, if_neg hpq, expOf_cons, if_neg hpq] at h0
      rw [htail]

theorem value_nil : value [] = 1 := rfl

theorem value_cons (x : ℕ × ℕ) (l : FactorsList) :
    value (x :: l) = x.1 ^ x.2 * value l := by
  simp [value]

theorem value_perm {l l' : FactorsList} (h : l.Perm l') : value l = value l' :=
  (h.map _).prod_eq

theorem value_filter_pos (l : FactorsList) :
    value (l.filter (fun pe => pe.2 != 0)) = value l := by
  induction l with
  | nil => rfl
  | cons x t ih =>
    obtain ⟨q, f⟩ := x
    by_cases hf : f = 0
    · subst hf
      rw [List.filter_cons_of_neg (by simp), ih, value_cons]
      simp
    · rw [List.filter_cons_of_pos (by simpa using hf), value_cons, value_cons, ih]

theorem value_standardForm (l : FactorsList) : value (standardForm l) = value l := by
  unfold standardForm
  rw [value_filter_pos, value_perm (sortByKey_perm l)]

theorem value_pos {l : FactorsList} (h : ∀ pe ∈ l, 0 < pe.1) : 0 < value l := by
  induction l with
  | nil => exact Nat.one_pos
  | cons x t ih =>
    rw [value_cons]
    exact Nat.mul_pos (Nat.pos_pow_of_pos _ (h x (by simp)))
      (ih (fun pe hpe => h pe (by simp [hpe])))

/-- Correctness of the trial-division primality test of `trial_division.py`:
it decides `Nat.Prime`. -/
theorem trial_is_prime_iff (n : ℕ) : trial_is_prime n = true ↔ Nat.Prime n := by
  unfold trial_is_prime
  rw [isqrt_eq]
  by_cases h2 : n < 2
  · rw [if_pos h2]
    simp only [Bool.false_eq_true, false_iff]
    intro hp
    exact absurd hp.two_le (by omega)
  · rw [if_neg h2]
    by_cases hn2 : n = 2
    · subst hn2
      simp [Nat.prime_two]
    · rw [if_neg hn2]
      by_cases heven : n % 2 = 0
      · rw [if_pos heven]
        simp only [Bool.false_eq_true, false_iff]
        intro hp
        rcases hp.eq_two_or_odd' with rfl | hodd
        · exact hn2 rfl
        · rw [Nat.odd_iff] at hodd
          omega
      · rw [if_neg heven]
        rw [List.all_eq_true]
        constructor
        · intro hall
          by_contra hnp
          set p₀ := n.minFac with hp₀def
          have hp₀ : p₀.Prime := Nat.minFac_prime (by omega)
          have hdvd : p₀ ∣ n := Nat.minFac_dvd n
          have hsq : p₀ ^ 2 ≤ n := Nat.minFac_sq_le_self (by omega) hnp
          have hne2 : p₀ ≠ 2 := by
            intro h
            rw [h] at hdvd
            omega
          have hodd : p₀ % 2 = 1 := by
            rcases hp₀.eq_two_or_odd' with h | h
            · exact absurd h hne2
            · exact Nat.odd_iff.mp h
          have h3 : 3 ≤ p₀ := by
            have := hp₀.two_le
            omega
          have hle : p₀ ≤ Nat.sqrt n := Nat.le_sqrt.mpr (by nlinarith [sq_nonneg p₀])
          have hmem : p₀ ∈ List.range' 3 ((Nat.sqrt n + 1 - 2) / 2) 2 := by
            rw [List.mem_range']
            exact ⟨(p₀ - 3) / 2, by omega, by omega⟩
          have := hall p₀ hmem
          simp only [bne_iff_ne, ne_eq] at this
          exact this ((Nat.mod_eq_zero_of_dvd hdvd).symm ▸ rfl)
        · intro hp d hd
          rw [List.mem_range'] at hd
          obtain ⟨i, hi, rfl⟩ := hd
          have hdle : 3 + 2 * i ≤ Nat.sqrt n := by omega
          have hdn : 3 + 2 * i < n := lt_of_le_of_lt hdle (Nat.sqrt_lt_self (by omega))
          simp only [bne_iff_ne, ne_eq]
          intro hmod
          have hdvd : (3 + 2 * i) ∣ n := Nat.dvd_of_mod_eq_zero hmod
          rcases (Nat.Prime.eq_one_or_self_of_dvd hp _ hdvd) with h | h <;> omega

theorem WF_canon {l : FactorsList} (h : WF l) : Canon l := by
  refine ⟨List.chain'_iff_pairwise.mp ((chainKeysLT_iff l).mp h.1),
    fun pe hpe => (h.2 pe hpe).1⟩

theorem WF_prime {l : FactorsList} (h : WF l) : ∀ pe ∈ l, Nat.Prime pe.1 :=
  fun pe hpe => (trial_is_prime_iff pe.1).mp (h.2 pe hpe).2

theorem WF_value_pos {l : FactorsList} (h : WF l) : 0 < value l :=
  value_pos (fun pe hpe => (WF_prime h pe hpe).pos)

theorem WF_keys_nodup {l : FactorsList} (h : WF l) : (keys l).Nodup := by
  have := (WF_canon h).1
  exact List.pairwise_map.mpr (this.imp (fun hab => Nat.ne_of_lt hab))

theorem WF_tail {x : ℕ × ℕ} {t : FactorsList} (h : WF (x :: t)) : WF t :=
  ⟨(chainKeysLT_iff t).mpr ((List.chain'_cons'.mp ((chainKeysLT_iff (x :: t)).mp h.1)).2),
    fun pe hpe => h.2 pe (by simp [hpe])⟩

/-- Bridge between the association-list representation and Mathlib's
`Nat.factorization`: for a well-formed factorization, the exponent of `p`
in the represented integer is exactly the stored exponent. -/
theorem factorization_value : ∀ {l : FactorsList}, WF l → ∀ p,
    (value l).factorization p = expOf l p := by
  intro l
  induction l with
  | nil => intro _ p; simp [value_nil, expOf_nil]
  | cons x t ih =>
    intro h p
    obtain ⟨q, f⟩ := x
    have hq : Nat.Prime q := WF_prime h (q, f) (by simp)
    have ht : WF t := WF_tail h
    have hqt : q ∉ keys t := canon_head_not_mem (WF_canon h)
    have htpos : value t ≠ 0 := by have := WF_value_pos ht; omega
    have hqf : q ^ f ≠ 0 := pow_ne_zero f hq.pos.ne'
    have hv : value ((q, f) :: t) = q ^ f * value t := by simp [value]
    rw [hv, Nat.factorization_mul hqf htpos, Finsupp.add_apply, hq.factorization_pow,
      Finsupp.single_apply, ih ht p, expOf_cons]
    by_cases hpq : p = q
    · rw [if_pos hpq, if_pos hpq.symm, expOf_eq_zero_of_not_mem (hpq ▸ hqt)]
      omega
    · rw [if_neg hpq, if_neg (fun hqp => hpq hqp.symm), Nat.zero_add]

/-- Two well-formed factorizations with the same integer value are equal
(uniqueness of prime factorization, transported to the model). -/
theorem value_inj {l₁ l₂ : FactorsList} (h₁ : WF l₁) (h₂ : WF l₂)
    (h : value l₁ = value l₂) : l₁ = l₂ := by
  refine canon_ext (WF_canon h₁) (WF_canon h₂) (fun p => ?_)
  rw [← factorization_value h₁ p, ← factorization_value h₂ p, h]

theorem WF_key_prime {l : FactorsList} (h : WF l) {p : ℕ} (hp : p ∈ keys l) :
    trial_is_prime p = true := by
  obtain ⟨pe, hpe, rfl⟩ := List.mem_map.mp hp
  exact (h.2 pe hpe).2

theorem value_append (l₁ l₂ : FactorsList) :
    value (l₁ ++ l₂) = value l₁ * value l₂ := by
  simp [value, List.prod_append]

theorem expOf_append (l₁ l₂ : FactorsList) (p : ℕ) :
    expOf (l₁ ++ l₂) p = if containsKey l₁ p then expOf l₁ p else expOf l₂ p := by
  induction l₁ with
  | nil => simp [containsKey]
  | cons x t ih =>
    obtain ⟨q, f⟩ := x
    rw [List.cons_append, expOf_cons]
    by_cases hpq : p = q
    · subst hpq
      rw [if_pos rfl, if_pos (by simp [containsKey]), expOf_cons, if_pos rfl]
    · rw [if_neg hpq, ih]
      have hck : containsKey ((q, f) :: t) p = containsKey t p := by
        simp only [containsKey, List.any_cons]
        rw [show (((q, f).1 == p) = false) from beq_eq_false_iff_ne.mpr
          (fun h => hpq h.symm), Bool.false_or]
      rw [hck]
      by_cases hct : containsKey t p = true
      · rw [if_pos hct, if_pos hct, expOf_cons, if_neg hpq]
      · rw [if_neg hct, if_neg hct]

theorem map_upd_id {q f : ℕ} {t : FactorsList} (h : q ∉ keys t) :
    t.map (fun x => if x.1 == q then (x.1, x.2 + f) else x) = t := by
  have : ∀ x ∈ t, (if x.1 == q then (x.1, x.2 + f) else x) = id x := by
    intro x hx
    have hxq : x.1 ≠ q := by
      intro hxq
      exact h (List.mem_map.mpr ⟨x, hx, hxq⟩)
    simp [hxq]
  rw [List.map_congr_left this, List.map_id]

theorem keys_update (q f : ℕ) (acc : FactorsList) :
    keys (acc.map (fun x => if x.1 == q then (x.1, x.2 + f) else x)) = keys acc := by
  unfold keys
  rw [List.map_map]
  refine List.map_congr_left (fun x _ => ?_)
  by_cases h : x.1 = q <;> simp [h]

theorem expOf_update {q f : ℕ} : ∀ {acc : FactorsList}, (keys acc).Nodup →
    q ∈ keys acc → ∀ p,
    expOf (acc.map (fun x => if x.1 == q then (x.1, x.2 + f) else x)) p =
      expOf acc p + if p = q then f else 0 := by
  intro acc
  induction acc with
  | nil => intro _ hq; simp [keys] at hq
  | cons x t ih =>
    intro hnd hq p
    obtain ⟨k, e⟩ := x
    simp only [keys, List.map_cons, List.nodup_cons] at hnd
    by_cases hkq : k = q
    · subst hkq
      rw [List.map_cons]
      have hkt : k ∉ keys t := by simpa [keys] using hnd.1
      rw [show (if ((k, e).1 == k) then ((k, e).1, (k, e).2 + f) else (k, e)) = (k, e + f)
          from by simp]
      rw [map_upd_id hkt, expOf_cons, expOf_cons]
      by_cases hpk : p = k
      · rw [if_pos hpk, if_pos hpk, if_pos hpk]
      · rw [if_neg hpk, if_neg hpk, if_neg hpk, Nat.add_zero]
    · have hqt : q ∈ keys t := by
        rcases List.mem_cons.mp (show q ∈ (k, e).1 :: keys t from by simpa [keys] using hq)
          with h | h
        · exact absurd h.symm hkq
        · exact h
      rw [List.map_cons]
      rw [show (if ((k, e).1 == q) then ((k, e).1, (k, e).2 + f) else (k, e)) = (k, e)
          from by simp [hkq]]
      rw [expOf_cons, expOf_cons, ih (by simpa [keys] using hnd.2) hqt]
      by_cases hpk : p = k
      · have hpq : ¬ p = q := by rw [hpk]; exact hkq
        rw [if_pos hpk, if_pos hpk, if_neg hpq, Nat.add_zero]
      · rw [if_neg hpk, if_neg hpk]

theorem value_update {q f : ℕ} : ∀ {acc : FactorsList}, (keys acc).Nodup →
    q ∈ keys acc →
    value (acc.map (fun x => if x.1 == q then (x.1, x.2 + f) else x)) =
      value acc * q ^ f := by
  intro acc
  induction acc with
  | nil => intro _ hq; simp [keys] at hq
  | cons x t ih =>
    intro hnd hq
    obtain ⟨k, e⟩ := x
    simp only [keys, List.map_cons, List.nodup_cons] at hnd
    by_cases hkq : k = q
    · subst hkq
      have hkt : k ∉ keys t := by simpa [keys] using hnd.1
      rw [List.map_cons]
      rw [show (if ((k, e).1 == k) then ((k, e).1, (k, e).2 + f) else (k, e)) = (k, e + f)
          from by simp]
      rw [map_upd_id hkt, value_cons, value_cons]
      simp only
      rw [pow_add]
      ring
    · have hqt : q ∈ keys t := by
        rcases List.mem_cons.mp (show q ∈ (k, e).1 :: keys t from by simpa [keys] using hq)
          with h | h
        · exact absurd h.symm hkq
        · exact h
      rw [List.map_cons]
      rw [show (if ((k, e).1 == q) then ((k, e).1, (k, e).2 + f) else (k, e)) = (k, e)
          from by simp [hkq]]
      rw [value_cons, value_cons, ih (by simpa [keys] using hnd.2) hqt]
      ring

theorem keys_addEntry (acc : FactorsList) (x : ℕ × ℕ) :
    keys (addEntry acc x) =
      if containsKey acc x.1 then keys acc else keys acc ++ [x.1] := by
  unfold addEntry
  by_cases h : containsKey acc x.1
  · rw [if_pos h, if_pos h, keys_update]
  · rw [if_neg h, if_neg h]
    simp [keys]

theorem keys_addEntry_nodup {acc : FactorsList} (h : (keys acc).Nodup) (x : ℕ × ℕ) :
    (keys (addEntry acc x)).Nodup := by
  rw [keys_addEntry]
  by_cases hc : containsKey acc x.1
  · rwa [if_pos hc]
  · rw [if_neg hc]
    rw [(List.perm_append_singleton x.1 (keys acc)).nodup_iff]
    refine List.nodup_cons.mpr ⟨?_, h⟩
    intro hmem
    exact hc ((containsKey_iff acc x.1).mpr hmem)

theorem expOf_addEntry {acc : FactorsList} (h : (keys acc).Nodup) (q f p : ℕ) :
    expOf (addEntry acc (q, f)) p = expOf acc p + if p = q then f else 0 := by
  unfold addEntry
  by_cases hc : containsKey acc (q, f).1
  · rw [if_pos hc]
    exact expOf_update h ((containsKey_iff acc q).mp hc) p
  · rw [if_neg hc]
    rw [expOf_append]
    by_cases hcp : containsKey acc p
    · rw [if_pos hcp]
      have hpq : ¬ p = q := by
        intro hpq
        exact hc (hpq ▸ hcp)
      rw [if_neg hpq, Nat.add_zero]
    · rw [if_neg hcp]
      rw [expOf_eq_zero_of_not_mem (fun hm => hcp ((containsKey_iff acc p).mpr hm)),
        Nat.zero_add, expOf_cons, expOf_nil]

theorem value_addEntry {acc : FactorsList} (h : (keys acc).Nodup) (q f : ℕ) :
    value (addEntry acc (q, f)) = value acc * q ^ f := by
  unfold addEntry
  by_cases hc : containsKey acc (q, f).1
  · rw [if_pos hc]
    exact value_update h ((containsKey_iff acc q).mp hc)
  · rw [if_neg hc, value_append, value_cons, value_nil]
    simp

theorem keys_mulFactors_nodup : ∀ {b a : FactorsList}, (keys a).Nodup →
    (keys (mulFactors a b)).Nodup := by
  intro b
  induction b with
  | nil => intro a h; exact h
  | cons x bs ih =>
    intro a h
    exact ih (keys_addEntry_nodup h x)

theorem expOf_mulFactors : ∀ {b a : FactorsList}, (keys a).Nodup → (keys b).Nodup →
    ∀ p, expOf (mulFactors a b) p = expOf a p + expOf b p := by
  intro b
  induction b with
  | nil => intro a _ _ p; rw [expOf_nil, Nat.add_zero]; rfl
  | cons x bs ih =>
    intro a ha hb p
    obtain ⟨q, f⟩ := x
    simp only [keys, List.map_cons, List.nodup_cons] at hb
    have step : mulFactors a ((q, f) :: bs) = mulFactors (addEntry a (q, f)) bs := rfl
    rw [step, ih (keys_addEntry_nodup ha _) (by simpa [keys] using hb.2) p,
      expOf_addEntry ha, expOf_cons]
    by_cases hpq : p = q
    · subst hpq
      have hz : expOf bs p = 0 := expOf_eq_zero_of_not_mem (by simpa [keys] using hb.1)
      rw [if_pos rfl, if_pos rfl, hz]
      omega
    · rw [if_neg hpq, if_neg hpq, Nat.add_zero]

theorem value_mulFactors : ∀ {b a : FactorsList}, (keys a).Nodup →
    value (mulFactors a b) = value a * value b := by
  intro b
  induction b with
  | nil => intro a _; rw [value_nil, Nat.mul_one]; rfl
  | cons x bs ih =>
    intro a ha
    obtain ⟨q, f⟩ := x
    have step : mulFactors a ((q, f) :: bs) = mulFactors (addEntry a (q, f)) bs := rfl
    rw [step, ih (keys_addEntry_nodup ha _), value_addEntry ha, value_cons]
    simp only
    ring

theorem keys_mulFactors_sub : ∀ {b a : FactorsList},
    keys (mulFactors a b) ⊆ keys a ++ keys b := by
  intro b
  induction b with
  | nil =>
    intro a p hp
    rw [show mulFactors a [] = a from rfl] at hp
    exact List.mem_append.mpr (Or.inl hp)
  | cons x bs ih =>
    intro a p hp
    have step : mulFactors a (x :: bs) = mulFactors (addEntry a x) bs := rfl
    rw [step] at hp
    have h1 := ih hp
    rcases List.mem_append.mp h1 with h | h
    · rw [keys_addEntry] at h
      by_cases hc : containsKey a x.1
      · rw [if_pos hc] at h
        exact List.mem_append.mpr (Or.inl h)
      · rw [if_neg hc] at h
        rcases List.mem_append.mp h with h | h
        · exact List.mem_append.mpr (Or.inl h)
        · simp only [List.mem_singleton] at h
          subst h
          exact List.mem_append.mpr (Or.inr (List.mem_cons_self x.1 (keys bs)))
    · exact List.mem_append.mpr (Or.inr (List.mem_cons_of_mem x.1 h))

theorem WF_fmul {a b : FactorsList} (ha : WF a) (hb : WF b) : WF (fmul a b) := by
  have hnd : (keys (mulFactors a b)).Nodup := keys_mulFactors_nodup (WF_keys_nodup ha)
  have hc := standardForm_canon hnd
  refine ⟨(chainKeysLT_iff _).mpr (List.chain'_iff_pairwise.mpr hc.1),
    fun pe hpe => ⟨hc.2 pe hpe, ?_⟩⟩
  have hmem : pe ∈ mulFactors a b := standardForm_sub _ pe hpe
  have hkey : pe.1 ∈ keys a ++ keys b :=
    keys_mulFactors_sub (List.mem_map.mpr ⟨pe, hmem, rfl⟩)
  rcases List.mem_append.mp hkey with h | h
  · exact WF_key_prime ha h
  · exact WF_key_prime hb h

theorem expOf_fmul {a b : FactorsList} (ha : WF a) (hb : WF b) (p : ℕ) :
    expOf (fmul a b) p = expOf a p + expOf b p := by
  unfold fmul
  rw [expOf_standardForm (keys_mulFactors_nodup (WF_keys_nodup ha)),
    expOf_mulFactors (WF_keys_nodup ha) (WF_keys_nodup hb)]

theorem value_fmul {a b : FactorsList} (ha : WF a) (_hb : WF b) :
    value (fmul a b) = value a * value b := by
  unfold fmul
  rw [value_standardForm, value_mulFactors (WF_keys_nodup ha)]

theorem fmul_comm {a b : FactorsList} (ha : WF a) (hb : WF b) :
    fmul a b = fmul b a := by
  refine canon_ext (WF_canon (WF_fmul ha hb)) (WF_canon (WF_fmul hb ha)) (fun p => ?_)
  rw [expOf_fmul ha hb, expOf_fmul hb ha, Nat.add_comm]

theorem fmul_assoc {a b c : FactorsList} (ha : WF a) (hb : WF b) (hc : WF c) :
    fmul (fmul a b) c = fmul a (fmul b c) := by
  refine canon_ext (WF_canon (WF_fmul (WF_fmul ha hb) hc))
    (WF_canon (WF_fmul ha (WF_fmul hb hc))) (fun p => ?_)
  rw [expOf_fmul (WF_fmul ha hb) hc, expOf_fmul ha hb, expOf_fmul ha (WF_fmul hb hc),
    expOf_fmul hb hc, Nat.add_assoc]

theorem expOf_map_key_fn (g : ℕ → ℕ) : ∀ (ku : List ℕ) (p : ℕ),
    expOf (ku.map (fun q => (q, g q))) p = if p ∈ ku then g p else 0 := by
  intro ku
  induction ku with
  | nil => intro p; simp [expOf_nil]
  | cons k rest ih =>
    intro p
    rw [List.map_cons, expOf_cons, ih]
    by_cases hpk : p = k
    · subst hpk
      rw [if_pos rfl, if_pos (by simp)]
    · rw [if_neg hpk]
      by_cases hpr : p ∈ rest
      · rw [if_pos hpr, if_pos (by simp [hpr])]
      · rw [if_neg hpr, if_neg (by simp [hpk, hpr])]

theorem lcm_keys_nodup {a b : FactorsList} (ha : WF a) (hb : WF b) :
    ((a.map Prod.fst) ++ (b.map Prod.fst).filter (fun p => !containsKey a p)).Nodup := by
  refine List.Nodup.append (WF_keys_nodup ha) ((WF_keys_nodup hb).filter _) ?_
  intro p hpa hpf
  have h1 := List.of_mem_filter hpf
  have h2 : containsKey a p = true := (containsKey_iff a p).mpr hpa
  rw [h2] at h1
  exact absurd h1 (by simp)

theorem expOf_lcmFactors {a b : FactorsList} (ha : WF a) (hb : WF b) (p : ℕ) :
    expOf (lcmFactors a b) p = max (expOf a p) (expOf b p) := by
  unfold lcmFactors
  have hnd := lcm_keys_nodup ha hb
  have hkeys : keys (((a.map Prod.fst) ++ (b.map Prod.fst).filter
      (fun p => !containsKey a p)).map (fun p => (p, max (expOf a p) (expOf b p)))) =
      (a.map Prod.fst) ++ (b.map Prod.fst).filter (fun p => !containsKey a p) := by
    unfold keys
    rw [List.map_map]
    exact List.map_id _
  rw [expOf_standardForm (by rw [hkeys]; exact hnd), expOf_map_key_fn]
  by_cases hmem : p ∈ (a.map Prod.fst) ++ (b.map Prod.fst).filter (fun p => !containsKey a p)
  · rw [if_pos hmem]
  · rw [if_neg hmem]
    have hpa : p ∉ keys a := by
      intro h
      exact hmem (List.mem_append.mpr (Or.inl h))
    have hpb : p ∉ keys b := by
      intro h
      refine hmem (List.mem_append.mpr (Or.inr ?_))
      refine List.mem_filter.mpr ⟨h, ?_⟩
      have : containsKey a p = false := by
        rcases Bool.eq_false_or_eq_true (containsKey a p) with ht | hf
        · exact absurd ((containsKey_iff a p).mp ht) hpa
        · exact hf
      simp [this]
    rw [expOf_eq_zero_of_not_mem hpa, expOf_eq_zero_of_not_mem hpb]
    simp

theorem WF_lcmFactors {a b : FactorsList} (ha : WF a) (hb : WF b) :
    WF (lcmFactors a b) := by
  have hnd := lcm_keys_nodup ha hb
  have hkeys : keys (((a.map Prod.fst) ++ (b.map Prod.fst).filter
      (fun p => !containsKey a p)).map (fun p => (p, max (expOf a p) (expOf b p)))) =
      (a.map Prod.fst) ++ (b.map Prod.fst).filter (fun p => !containsKey a p) := by
    unfold keys
    rw [List.map_map]
    exact List.map_id _
  have hc : Canon (standardForm (((a.map Prod.fst) ++ (b.map Prod.fst).filter
      (fun p => !containsKey a p)).map (fun p => (p, max (expOf a p) (expOf b p))))) :=
    standardForm_canon (by rw [hkeys]; exact hnd)
  refine ⟨(chainKeysLT_iff _).mpr (List.chain'_iff_pairwise.mpr hc.1),
    fun pe hpe => ⟨hc.2 pe hpe, ?_⟩⟩
  have hmem := standardForm_sub _ pe hpe
  obtain ⟨q, hq, rfl⟩ := List.mem_map.mp hmem
  rcases List.mem_append.mp hq with h | h
  · exact WF_key_prime ha h
  · exact WF_key_prime hb (List.mem_of_mem_filter h)

theorem value_lcmFactors {a b : FactorsList} (ha : WF a) (hb : WF b) :
    value (lcmFactors a b) = Nat.lcm (value a) (value b) := by
  have hva : value a ≠ 0 := by have := WF_value_pos ha; omega
  have hvb : value b ≠ 0 := by have := WF_value_pos hb; omega
  refine Nat.eq_of_factorization_eq
    (by have := WF_value_pos (WF_lcmFactors ha hb); omega)
    (Nat.lcm_ne_zero hva hvb) (fun p => ?_)
  rw [factorization_value (WF_lcmFactors ha hb), expOf_lcmFactors ha hb,
    Nat.factorization_lcm hva hvb, Finsupp.sup_apply,
    factorization_value ha, factorization_value hb]

/-- C9: For all Factorizations A and B, the product `A * B` is a Factorization
whose exponent map is the entrywise sum of the two exponent maps over the
union of their prime keys; consequently `int(A * B) = int(A) * int(B)`, and
multiplication is commutative and associative under Factorization equality. -/
theorem factorization_mul_spec (a b c : FactorsList)
    (ha : WF a) (hb : WF b) (hc : WF c) :
    WF (fmul a b) ∧
    (∀ p, expOf (fmul a b) p = expOf a p + expOf b p) ∧
    value (fmul a b) = value a * value b ∧
    fmul a b = fmul b a ∧
    fmul (fmul a b) c = fmul a (fmul b c) :=
  ⟨WF_fmul ha hb, expOf_fmul ha hb, value_fmul ha hb, fmul_comm ha hb,
    fmul_assoc ha hb hc⟩

theorem countN_pos (es : List ℕ) : 0 < countN es := by
  induction es with
  | nil => exact Nat.one_pos
  | cons e es ih =>
    have : countN (e :: es) = (e + 1) * countN es := by simp [countN]
    rw [this]
    positivity

theorem divisors_count_eq (F : FactorsList) :
    divisors_count F = countN (F.map Prod.snd) := by
  have aux : ∀ (l : FactorsList) (a : ℕ),
      l.foldl (fun acc pe => acc * (pe.2 + 1)) a = a * countN (l.map Prod.snd) := by
    intro l
    induction l with
    | nil => intro a; simp [countN]
    | cons x t ih =>
      intro a
      have : countN ((x :: t).map Prod.snd) = (x.2 + 1) * countN (t.map Prod.snd) := by
        simp [countN]
      rw [List.foldl_cons, ih, this]
      ring
  have := aux F 1
  rw [divisors_count, this, Nat.one_mul]

theorem zerosOf_valid (es : List ℕ) : List.Forall₂ (· ≤ ·) (zerosOf es) es := by
  induction es with
  | nil => exact List.Forall₂.nil
  | cons e es ih => exact List.Forall₂.cons (Nat.zero_le e) ih

theorem vecRank_zerosOf (es : List ℕ) : vecRank (zerosOf es) es = 0 := by
  induction es with
  | nil => rfl
  | cons e es ih =>
    show 0 + (e + 1) * vecRank (zerosOf es) es = 0
    rw [ih]
    omega

theorem vecRank_lt {cs es : List ℕ} (h : List.Forall₂ (· ≤ ·) cs es) :
    vecRank cs es < countN es := by
  induction h with
  | nil => exact Nat.one_pos
  | @cons c e cs es hce _tail ih =>
    show c + (e + 1) * vecRank cs es < countN (e :: es)
    have hN : countN (e :: es) = (e + 1) * countN es := by simp [countN]
    rw [hN]
    calc c + (e + 1) * vecRank cs es < (e + 1) + (e + 1) * vecRank cs es := by omega
    _ = (e + 1) * (vecRank cs es + 1) := by ring
    _ ≤ (e + 1) * countN es := Nat.mul_le_mul_left _ (by omega)

theorem vecRank_self (es : List ℕ) : vecRank es es = countN es - 1 := by
  induction es with
  | nil => rfl
  | cons e es ih =>
    show e + (e + 1) * vecRank es es = countN (e :: es) - 1
    have hN : countN (e :: es) = (e + 1) * countN es := by simp [countN]
    obtain ⟨m, hm⟩ : ∃ m, countN es = m + 1 :=
      ⟨countN es - 1, by have := countN_pos es; omega⟩
    rw [hN, ih, hm, Nat.mul_succ]
    simp only [Nat.add_sub_cancel]
    omega

theorem stepCounters_none_iff {cs es : List ℕ} (h : List.Forall₂ (· ≤ ·) cs es) :
    stepCounters cs es = none ↔ cs = es := by
  induction h with
  | nil => simp [stepCounters]
  | @cons c e cs es hce htail ih =>
    show (if c < e then some ((c + 1) :: cs)
      else (stepCounters cs es).map (fun l => 0 :: l)) = none ↔ _
    by_cases hlt : c < e
    · rw [if_pos hlt]
      simp only [reduceCtorEq, false_iff]
      intro hc
      injection hc with h1 _
      omega
    · rw [if_neg hlt]
      have hc : c = e := by omega
      subst hc
      rw [Option.map_eq_none']
      rw [ih]
      constructor
      · rintro rfl; rfl
      · intro hc; injection hc

theorem stepCounters_succ {cs es : List ℕ} (h : List.Forall₂ (· ≤ ·) cs es)
    (hne : cs ≠ es) : ∃ cs', stepCounters cs es = some cs' ∧
      List.Forall₂ (· ≤ ·) cs' es ∧ vecRank cs' es = vecRank cs es + 1 := by
  induction h with
  | nil => exact absurd rfl hne
  | @cons c e cs es hce htail ih =>
    by_cases hlt : c < e
    · refine ⟨(c + 1) :: cs, ?_, List.Forall₂.cons (by omega) htail, ?_⟩
      · show (if c < e then some ((c + 1) :: cs) else _) = _
        rw [if_pos hlt]
      · show (c + 1) + (e + 1) * vecRank cs es = c + (e + 1) * vecRank cs es + 1
        omega
    · have hc : c = e := by omega
      subst hc
      have htne : cs ≠ es := fun hh => hne (by rw [hh])
      obtain ⟨cs', hstep, hval, hrank⟩ := ih htne
      refine ⟨0 :: cs', ?_, List.Forall₂.cons (Nat.zero_le c) hval, ?_⟩
      · show (if c < c then some ((c + 1) :: cs) else
          (stepCounters cs es).map (fun l => 0 :: l)) = some (0 :: cs')
        rw [if_neg (lt_irrefl c), hstep]
        rfl
      · show 0 + (c + 1) * vecRank cs' es = c + (c + 1) * vecRank cs es + 1
        rw [hrank, Nat.mul_succ]
        omega

theorem vecRank_inj : ∀ {es c₁ c₂ : List ℕ}, List.Forall₂ (· ≤ ·) c₁ es →
    List.Forall₂ (· ≤ ·) c₂ es → vecRank c₁ es = vecRank c₂ es → c₁ = c₂ := by
  intro es
  induction es with
  | nil =>
    intro c₁ c₂ h₁ h₂ _
    cases h₁
    cases h₂
    rfl
  | cons e es ih =>
    intro c₁ c₂ h₁ h₂ hr
    obtain ⟨a, cs₁, hae, h₁t, rfl⟩ :
        ∃ a cs₁, a ≤ e ∧ List.Forall₂ (· ≤ ·) cs₁ es ∧ c₁ = a :: cs₁ := by
      cases h₁ with
      | cons hae ht => exact ⟨_, _, hae, ht, rfl⟩
    obtain ⟨b, cs₂, hbe, h₂t, rfl⟩ :
        ∃ b cs₂, b ≤ e ∧ List.Forall₂ (· ≤ ·) cs₂ es ∧ c₂ = b :: cs₂ := by
      cases h₂ with
      | cons hbe ht => exact ⟨_, _, hbe, ht, rfl⟩
    have hr' : a + (e + 1) * vecRank cs₁ es = b + (e + 1) * vecRank cs₂ es := hr
    have hma : (a + (e + 1) * vecRank cs₁ es) % (e + 1) = a := by
      rw [Nat.mul_comm, Nat.add_mul_mod_self_right]
      exact Nat.mod_eq_of_lt (by omega)
    have hmb : (b + (e + 1) * vecRank cs₂ es) % (e + 1) = b := by
      rw [Nat.mul_comm, Nat.add_mul_mod_self_right]
      exact Nat.mod_eq_of_lt (by omega)
    have hab : a = b := by rw [← hma, ← hmb, hr']
    subst hab
    have hmul : (e + 1) * vecRank cs₁ es = (e + 1) * vecRank cs₂ es := by omega
    have htl : vecRank cs₁ es = vecRank cs₂ es :=
      Nat.eq_of_mul_eq_mul_left (by omega) hmul
    rw [ih h₁t h₂t htl]

/-- Witness for C9 at A = 2·3², B = 2²·5, C = 3. -/
theorem factorization_mul_spec_witness :
    WF (fmul [(2, 1), (3, 2)] [(2, 2), (5, 1)]) ∧
    (∀ p, expOf (fmul [(2, 1), (3, 2)] [(2, 2), (5, 1)]) p =
      expOf [(2, 1), (3, 2)] p + expOf [(2, 2), (5, 1)] p) ∧
    value (fmul [(2, 1), (3, 2)] [(2, 2), (5, 1)]) =
      value [(2, 1), (3, 2)] * value [(2, 2), (5, 1)] ∧
    fmul [(2, 1), (3, 2)] [(2, 2), (5, 1)] = fmul [(2, 2), (5, 1)] [(2, 1), (3, 2)] ∧
    fmul (fmul [(2, 1), (3, 2)] [(2, 2), (5, 1)]) [(3, 1)] =
      fmul [(2, 1), (3, 2)] (fmul [(2, 2), (5, 1)] [(3, 1)]) :=
  factorization_mul_spec [(2, 1), (3, 2)] [(2, 2), (5, 1)] [(3, 1)]
    (by decide) (by decide) (by decide)


theorem odoSteps_spec (es : List ℕ) : ∀ fuel (cs : List ℕ),
    List.Forall₂ (· ≤ ·) cs es → countN es - 1 - vecRank cs es ≤ fuel →
    (odoSteps es fuel cs).map (fun v => vecRank v es) =
      List.range' (vecRank cs es + 1) (countN es - 1 - vecRank cs es) ∧
    ∀ v ∈ odoSteps es fuel cs, List.Forall₂ (· ≤ ·) v es := by
  intro fuel
  induction fuel with
  | zero =>
    intro cs hval hle
    have h0 : countN es - 1 - vecRank cs es = 0 := by omega
    rw [h0]
    exact ⟨by simp [odoSteps, List.range'_zero], by simp [odoSteps]⟩
  | succ fuel ih =>
    intro cs hval hle
    by_cases heq : cs = es
    · have hstep : stepCounters cs es = none := (stepCounters_none_iff hval).mpr heq
      have h0 : countN es - 1 - vecRank cs es = 0 := by
        rw [heq, vecRank_self]
        omega
      rw [h0]
      constructor
      · unfold odoSteps
        rw [hstep, List.range'_zero]
        rfl
      · intro v hv
        unfold odoSteps at hv
        rw [hstep] at hv
        exact absurd hv (List.not_mem_nil v)
    · obtain ⟨cs', hstep, hval', hrank⟩ := stepCounters_succ hval heq
      have hlt : vecRank cs es < countN es := vecRank_lt hval
      have hne : vecRank cs es ≠ countN es - 1 := by
        intro hr
        exact heq (vecRank_inj hval (List.forall₂_same.mpr (fun x _ => le_refl x))
          (by rw [hr, vecRank_self]))
      have hcnt : countN es - 1 - vecRank cs es = (countN es - 1 - vecRank cs' es) + 1 := by
        rw [hrank]
        omega
      obtain ⟨ihmap, ihval⟩ := ih cs' hval' (by omega)
      constructor
      · show (odoSteps es (fuel + 1) cs).map _ = _
        unfold odoSteps
        rw [hstep, List.map_cons, ihmap, hcnt, List.range'_succ, hrank]
      · intro v hv
        unfold odoSteps at hv
        rw [hstep, List.mem_cons] at hv
        rcases hv with rfl | hv
        · exact hval'
        · exact ihval v hv

theorem odoTrace_map_rank (es : List ℕ) :
    (odoTrace es).map (fun v => vecRank v es) = List.range' 0 (countN es) := by
  have hz := zerosOf_valid es
  obtain ⟨hmap, _⟩ := odoSteps_spec es (countN es - 1) (zerosOf es) hz
    (by rw [vecRank_zerosOf]; omega)
  unfold odoTrace
  rw [List.map_cons, hmap, vecRank_zerosOf]
  have hN : countN es = (countN es - 1) + 1 := by
    have := countN_pos es
    omega
  rw [hN, List.range'_succ]
  simp

theorem odoTrace_valid {es v : List ℕ} (h : v ∈ odoTrace es) :
    List.Forall₂ (· ≤ ·) v es := by
  unfold odoTrace at h
  rcases List.mem_cons.mp h with rfl | h
  · exact zerosOf_valid es
  · exact (odoSteps_spec es (countN es - 1) (zerosOf es) (zerosOf_valid es)
      (by rw [vecRank_zerosOf]; omega)).2 v h

theorem odoTrace_length (es : List ℕ) : (odoTrace es).length = countN es := by
  have := congrArg List.length (odoTrace_map_rank es)
  simpa using this

theorem odoTrace_nodup (es : List ℕ) : (odoTrace es).Nodup :=
  List.Nodup.of_map _ (by rw [odoTrace_map_rank]; exact List.nodup_range' 0 (countN es))

theorem mem_odoTrace_iff (es v : List ℕ) :
    v ∈ odoTrace es ↔ List.Forall₂ (· ≤ ·) v es := by
  constructor
  · exact odoTrace_valid
  · intro hval
    have hlt : vecRank v es < countN es := vecRank_lt hval
    have hmem : vecRank v es ∈ List.range' 0 (countN es) :=
      List.mem_range'_1.mpr ⟨Nat.zero_le _, by omega⟩
    rw [← odoTrace_map_rank es] at hmem
    obtain ⟨w, hw, hrw⟩ := List.mem_map.mp hmem
    rwa [vecRank_inj (odoTrace_valid hw) hval hrw] at hw

theorem odoTrace_head (es : List ℕ) : (odoTrace es).head? = some (zerosOf es) := rfl

theorem odoTrace_getLast (es : List ℕ) : (odoTrace es).getLast? = some es := by
  have hmap := congrArg List.getLast? (odoTrace_map_rank es)
  rw [List.getLast?_map] at hmap
  have hN : countN es = (countN es - 1) + 1 := by
    have := countN_pos es
    omega
  rw [hN, List.range'_concat, List.getLast?_concat] at hmap
  cases hw : (odoTrace es).getLast? with
  | none =>
    rw [hw] at hmap
    exact absurd hmap (by simp)
  | some w =>
    rw [hw] at hmap
    simp only [Option.map_some'] at hmap
    have hwmem : w ∈ odoTrace es := List.mem_of_getLast?_eq_some hw
    have hwval := odoTrace_valid hwmem
    have hwr : vecRank w es = vecRank es es := by
      rw [vecRank_self]
      have h1 := Option.some.inj hmap
      omega
    rw [vecRank_inj hwval (List.forall₂_same.mpr (fun x _ => le_refl x)) hwr]

theorem runIter_steps (es : List ℕ) : ∀ (k : ℕ) (cs : List ℕ),
    List.Forall₂ (· ≤ ·) cs es → k ≤ countN es - 1 - vecRank cs es →
    runIter es k (some cs) = (odoSteps es k cs).map some := by
  intro k
  induction k with
  | zero => intro cs _ _; rfl
  | succ k ih =>
    intro cs hval hk
    have heq : cs ≠ es := by
      intro h
      subst h
      rw [vecRank_self] at hk
      omega
    obtain ⟨cs', hstep, hval', hrank⟩ := stepCounters_succ hval heq
    show (divNext es (some cs)).1 :: runIter es k (divNext es (some cs)).2 = _
    have hdn : divNext es (some cs) = (some cs', some cs') := by
      simp only [divNext, hstep]
    rw [hdn]
    show some cs' :: runIter es k (some cs') = _
    unfold odoSteps
    rw [hstep, List.map_cons, ih cs' hval' (by omega)]

theorem runIter_exhaust (es : List ℕ) : ∀ (k : ℕ) (cs : List ℕ),
    List.Forall₂ (· ≤ ·) cs es → countN es - 1 - vecRank cs es = k →
    runIter es (k + 1) (some cs) = (odoSteps es k cs).map some ++ [none] := by
  intro k
  induction k with
  | zero =>
    intro cs hval hk
    have heq : cs = es := by
      refine vecRank_inj hval (List.forall₂_same.mpr (fun x _ => le_refl x)) ?_
      have := vecRank_lt hval
      rw [vecRank_self]
      omega
    have hstep : stepCounters cs es = none := (stepCounters_none_iff hval).mpr heq
    show (divNext es (some cs)).1 :: runIter es 0 (divNext es (some cs)).2 = _
    have hdn : divNext es (some cs) = (none, some (zerosOf es)) := by
      simp only [divNext, hstep]
    rw [hdn]
    rfl
  | succ k ih =>
    intro cs hval hk
    have heq : cs ≠ es := by
      intro h
      subst h
      rw [vecRank_self] at hk
      omega
    obtain ⟨cs', hstep, hval', hrank⟩ := stepCounters_succ hval heq
    show (divNext es (some cs)).1 :: runIter es (k + 1) (divNext es (some cs)).2 = _
    have hdn : divNext es (some cs) = (some cs', some cs') := by
      simp only [divNext, hstep]
    rw [hdn]
    show some cs' :: runIter es (k + 1) (some cs') = _
    unfold odoSteps
    rw [hstep, ih cs' hval' (by omega), List.map_cons]
    rfl

theorem runIter_trace (es : List ℕ) :
    runIter es (countN es) none = (odoTrace es).map some := by
  obtain ⟨m, hm⟩ : ∃ m, countN es = m + 1 :=
    ⟨countN es - 1, by have := countN_pos es; omega⟩
  rw [hm]
  show (divNext es none).1 :: runIter es m (divNext es none).2 = _
  have hdn : divNext es none = (some (zerosOf es), some (zerosOf es)) := rfl
  rw [hdn]
  show some (zerosOf es) :: runIter es m (some (zerosOf es)) = _
  unfold odoTrace
  rw [runIter_steps es m (zerosOf es) (zerosOf_valid es)
    (by rw [vecRank_zerosOf]; omega), List.map_cons]
  have : countN es - 1 = m := by omega
  rw [this]

theorem runIter_trace_exhaust (es : List ℕ) :
    runIter es (countN es + 1) none = (odoTrace es).map some ++ [none] := by
  obtain ⟨m, hm⟩ : ∃ m, countN es = m + 1 :=
    ⟨countN es - 1, by have := countN_pos es; omega⟩
  rw [hm]
  show (divNext es none).1 :: runIter es (m + 1) (divNext es none).2 = _
  have hdn : divNext es none = (some (zerosOf es), some (zerosOf es)) := rfl
  rw [hdn]
  show some (zerosOf es) :: runIter es (m + 1) (some (zerosOf es)) = _
  unfold odoTrace
  rw [runIter_exhaust es m (zerosOf es) (zerosOf_valid es)
    (by rw [vecRank_zerosOf]; omega), List.map_cons]
  have : countN es - 1 = m := by omega
  rw [this]
  rfl


theorem keys_zip {ps v : List ℕ} (h : v.length = ps.length) :
    keys (ps.zip v) = ps := by
  unfold keys
  exact List.map_fst_zip ps v (by omega)

theorem zip_fst_snd : ∀ l : FactorsList, (l.map Prod.fst).zip (l.map Prod.snd) = l := by
  intro l
  induction l with
  | nil => rfl
  | cons x t ih => simp [ih]

theorem zip_ext : ∀ {ps v w : List ℕ}, ps.Nodup → v.length = ps.length →
    w.length = ps.length → (∀ q, expOf (ps.zip v) q = expOf (ps.zip w) q) → v = w := by
  intro ps
  induction ps with
  | nil =>
    intro v w _ hv hw _
    rw [List.length_nil, List.length_eq_zero] at hv hw
    rw [hv, hw]
  | cons p ps ih =>
    intro v w hnd hv hw hexp
    obtain ⟨a, v', rfl⟩ : ∃ a v', v = a :: v' := by
      cases v with
      | nil => simp at hv
      | cons a v' => exact ⟨a, v', rfl⟩
    obtain ⟨b, w', rfl⟩ : ∃ b w', w = b :: w' := by
      cases w with
      | nil => simp at hw
      | cons b w' => exact ⟨b, w', rfl⟩
    rw [List.nodup_cons] at hnd
    have hab : a = b := by
      have h0 := hexp p
      rw [List.zip_cons_cons, List.zip_cons_cons, expOf_cons, expOf_cons,
        if_pos rfl, if_pos rfl] at h0
      exact h0
    subst hab
    have htail : v' = w' := by
      refine ih hnd.2 (by simpa using hv) (by simpa using hw) (fun q => ?_)
      by_cases hqp : q = p
      · subst hqp
        have hq1 : q ∉ keys (ps.zip v') := by
          rw [keys_zip (by simpa using hv)]
          exact hnd.1
        have hq2 : q ∉ keys (ps.zip w') := by
          rw [keys_zip (by simpa using hw)]
          exact hnd.1
        rw [expOf_eq_zero_of_not_mem hq1, expOf_eq_zero_of_not_mem hq2]
      · have h0 := hexp q
        rwa [List.zip_cons_cons, List.zip_cons_cons, expOf_cons, expOf_cons,
          if_neg hqp, if_neg hqp] at h0
    rw [htail]

theorem buildFactors_inj {ps v w : List ℕ} (hnd : ps.Nodup)
    (hv : v.length = ps.length) (hw : w.length = ps.length)
    (h : buildFactors ps v = buildFactors ps w) : v = w := by
  refine zip_ext hnd hv hw (fun q => ?_)
  have h1 : expOf (buildFactors ps v) q = expOf (buildFactors ps w) q := by rw [h]
  unfold buildFactors at h1
  rwa [expOf_standardForm (by rw [keys_zip hv]; exact hnd),
    expOf_standardForm (by rw [keys_zip hw]; exact hnd)] at h1

theorem value_buildFactors (ps v : List ℕ) :
    value (buildFactors ps v) = value (ps.zip v) := value_standardForm _

theorem WF_buildFactors {F : FactorsList} (hF : WF F) {v : List ℕ}
    (hv : List.Forall₂ (· ≤ ·) v (F.map Prod.snd)) :
    WF (buildFactors (F.map Prod.fst) v) := by
  have hlen : v.length = (F.map Prod.fst).length := by
    have := hv.length_eq
    simpa using this
  have hnd : ((F.map Prod.fst).zip v |> keys).Nodup := by
    rw [keys_zip hlen]
    exact WF_keys_nodup hF
  have hc := standardForm_canon hnd
  refine ⟨(chainKeysLT_iff _).mpr (List.chain'_iff_pairwise.mpr hc.1),
    fun pe hpe => ⟨hc.2 pe hpe, ?_⟩⟩
  have hmem : pe ∈ (F.map Prod.fst).zip v := standardForm_sub _ pe hpe
  obtain ⟨h1, _⟩ := List.of_mem_zip
    (show (pe.1, pe.2) ∈ (F.map Prod.fst).zip v from by simpa using hmem)
  exact WF_key_prime hF h1

theorem buildFactors_zeros {ps es : List ℕ} (_h : ps.length = es.length) :
    buildFactors ps (zerosOf es) = [] := by
  unfold buildFactors standardForm
  rw [List.filter_eq_nil_iff]
  intro pe hpe
  have hmem : pe ∈ ps.zip (zerosOf es) := (sortByKey_perm _).subset hpe
  obtain ⟨_, h2⟩ := List.of_mem_zip
    (show (pe.1, pe.2) ∈ ps.zip (zerosOf es) from by simpa using hmem)
  have : pe.2 = 0 := by
    unfold zerosOf at h2
    obtain ⟨_, _, hz⟩ := List.mem_map.mp h2
    omega
  simp [this]

theorem sortByKey_of_sorted : ∀ {l : FactorsList},
    l.Pairwise (fun x y => x.1 ≤ y.1) → sortByKey l = l := by
  intro l
  induction l with
  | nil => intro _; rfl
  | cons x t ih =>
    intro h
    rw [List.pairwise_cons] at h
    show insertByKey x (sortByKey t) = x :: t
    rw [ih h.2]
    cases t with
    | nil => rfl
    | cons y t' =>
      show (if x.1 ≤ y.1 then x :: y :: t' else y :: insertByKey x t') = x :: y :: t'
      rw [if_pos (h.1 y (by simp))]

theorem standardForm_of_canon {l : FactorsList} (h : Canon l) : standardForm l = l := by
  unfold standardForm
  rw [sortByKey_of_sorted (h.1.imp (fun hab => le_of_lt hab))]
  rw [List.filter_eq_self]
  intro pe hpe
  have := h.2 pe hpe
  simp
  omega

theorem buildFactors_self {F : FactorsList} (hF : WF F) :
    buildFactors (F.map Prod.fst) (F.map Prod.snd) = F := by
  unfold buildFactors
  rw [zip_fst_snd, standardForm_of_canon (WF_canon hF)]

theorem divisorsList_nodup {F : FactorsList} (hF : WF F) : (divisorsList F).Nodup := by
  unfold divisorsList
  refine List.Nodup.map_on ?_ (odoTrace_nodup _)
  intro v hv w hw hvw
  have hvval := odoTrace_valid hv
  have hwval := odoTrace_valid hw
  exact buildFactors_inj (show (F.map Prod.fst).Nodup from WF_keys_nodup hF)
    (by simpa using hvval.length_eq) (by simpa using hwval.length_eq) hvw


/-- C6: For every Factorization F with exponents e1..ek, DivisorsIterator(F)
produces exactly (e1+1)x...x(ek+1) divisors before signalling exhaustion,
visiting every divisor of F exactly once, with the first element equal to the
factorization of 1 (all exponents zero) and the last element equal to F
itself (all exponents maximal). -/
theorem divisors_iterator_spec (F : FactorsList) (hF : WF F) :
    runIter (F.map Prod.snd) (divisors_count F) none =
      (odoTrace (F.map Prod.snd)).map some ∧
    (odoTrace (F.map Prod.snd)).length = divisors_count F ∧
    (∀ v, v ∈ odoTrace (F.map Prod.snd) ↔
      List.Forall₂ (· ≤ ·) v (F.map Prod.snd)) ∧
    (divisorsList F).Nodup ∧
    (divisorsList F).head? = some [] ∧
    (divisorsList F).getLast? = some F ∧
    runIter (F.map Prod.snd) (divisors_count F + 1) none =
      (odoTrace (F.map Prod.snd)).map some ++ [none] := by
  have hlen : (F.map Prod.fst).length = (F.map Prod.snd).length := by simp
  refine ⟨?_, ?_, ?_, divisorsList_nodup hF, ?_, ?_, ?_⟩
  · rw [divisors_count_eq]
    exact runIter_trace _
  · rw [divisors_count_eq]
    exact odoTrace_length _
  · exact fun v => mem_odoTrace_iff _ v
  · unfold divisorsList
    rw [List.head?_map, odoTrace_head]
    rw [Option.map_some', buildFactors_zeros hlen]
  · unfold divisorsList
    rw [List.getLast?_map, odoTrace_getLast]
    rw [Option.map_some', buildFactors_self hF]
  · rw [divisors_count_eq]
    exact runIter_trace_exhaust _

/-- Witness for C6 at F = 2²·3 (divisor count 6). -/
theorem divisors_iterator_spec_witness :
    runIter (([(2, 2), (3, 1)] : FactorsList).map Prod.snd)
      (divisors_count [(2, 2), (3, 1)]) none =
      (odoTrace (([(2, 2), (3, 1)] : FactorsList).map Prod.snd)).map some ∧
    (odoTrace (([(2, 2), (3, 1)] : FactorsList).map Prod.snd)).length =
      divisors_count [(2, 2), (3, 1)] ∧
    (∀ v, v ∈ odoTrace (([(2, 2), (3, 1)] : FactorsList).map Prod.snd) ↔
      List.Forall₂ (· ≤ ·) v (([(2, 2), (3, 1)] : FactorsList).map Prod.snd)) ∧
    (divisorsList [(2, 2), (3, 1)]).Nodup ∧
    (divisorsList [(2, 2), (3, 1)]).head? = some [] ∧
    (divisorsList [(2, 2), (3, 1)]).getLast? = some [(2, 2), (3, 1)] ∧
    runIter (([(2, 2), (3, 1)] : FactorsList).map Prod.snd)
      (divisors_count [(2, 2), (3, 1)] + 1) none =
      (odoTrace (([(2, 2), (3, 1)] : FactorsList).map Prod.snd)).map some ++ [none] :=
  divisors_iterator_spec [(2, 2), (3, 1)] (by decide)

/-- C8 (code bug): after `DivisorsIterator` on the factorization of 2 has
signalled exhaustion, the next request does NOT signal exhaustion again: the
exhausting call has reset the counters to zero, so the fourth call returns
the divisor 2 again.  The four successive calls produce divisor 1 (counters
[0]), divisor 2 (counters [1]), StopIteration, divisor 2 (counters [1]). -/
theorem divisors_iterator_restart_bug :
    runIter (([(2, 1)] : FactorsList).map Prod.snd) 4 none =
      [some [0], some [1], none, some [1]] := by decide


/-- C5 (code bug): when the divisor count of F is smaller than the partition
count K — including the factorization of 1 with K = 1 — the scan in
`__get_partition_keys_index` never reaches the partition count and falls off
its loop returning `None`, so the constructor evaluates `None + 1` and raises
`TypeError` instead of producing (legitimately empty) partitions. -/
theorem partitioned_divisors_crash :
    partIter ([] : FactorsList) 0 1 = none ∧ partIter [(2, 1)] 0 3 = none := by
  decide

/-- C3 (code bug): `erdos_construction_varient.build_primes_set` maps the
generated divisors through `int` yet passes them to
`fellows_koblitz.is_prime` as the factorization argument.  At L = 2²·3 = 12
with order k = 1, the divisor d = 6 gives p = 7, which passes the Fermat test
for witness a = 2 and reaches `order(...)`; that calls `.primes()` on the int
and raises `AttributeError`, so the call raises instead of returning a set. -/
theorem build_primes_set_variant_crash :
    build_primes_set_variant [(2, 2), (3, 1)] 1 = none := by decide

/-- C4 counterexample: at L = 2³ = 8, order k = 2, partition count K = 1 the
single partition produces {3} while the unpartitioned `build_primes_set`
produces the empty set: the partitioned variant enumerates every divisor of
L, ignoring the k-th-root bound `int_root(8, 2) = 2` of the unpartitioned
form, so the union over all partitions differs from the unpartitioned
result.  (The witness-bound function is irrelevant here: the only
Fellows-Koblitz call that is reached is at p = 3, answered by the `n in
(2, 3)` case before the bound is used.) -/
theorem build_primes_set_partition_counterexample :
    build_primes_set_partition [(2, 3)] 2 0 1 (fun _ => 2) = some [3] ∧
    build_primes_set_variant [(2, 3)] 2 = some [] := by decide


theorem expOf_mem : ∀ {l : FactorsList} {p : ℕ}, p ∈ keys l → (p, expOf l p) ∈ l := by
  intro l
  induction l with
  | nil => intro p hp; simp [keys] at hp
  | cons x t ih =>
    intro p hp
    obtain ⟨q, f⟩ := x
    by_cases hpq : p = q
    · subst hpq
      rw [expOf_cons, if_pos rfl]
      exact List.mem_cons_self _ _
    · have hpt : p ∈ keys t := by
        rcases List.mem_cons.mp (show p ∈ (q, f).1 :: keys t from by simpa [keys] using hp)
          with h | h
        · exact absurd h hpq
        · exact h
      rw [expOf_cons, if_neg hpq]
      exact List.mem_cons_of_mem _ (ih hpt)

theorem prime_dvd_value_iff {F : FactorsList} (hF : WF F) {p : ℕ} (hp : Nat.Prime p) :
    p ∣ value F ↔ containsKey F p = true := by
  have hv : value F ≠ 0 := by have := WF_value_pos hF; omega
  rw [hp.dvd_iff_one_le_factorization hv, factorization_value hF, containsKey_iff]
  constructor
  · intro h1
    exact mem_keys_of_expOf_ne_zero (by omega)
  · intro hmem
    have := (hF.2 (p, expOf F p) (expOf_mem hmem)).1
    omega

theorem value_zip_dvd : ∀ {F : FactorsList} {v : List ℕ},
    List.Forall₂ (· ≤ ·) v (F.map Prod.snd) →
    value ((F.map Prod.fst).zip v) ∣ value F := by
  intro F
  induction F with
  | nil =>
    intro v hv
    cases hv
    exact dvd_refl _
  | cons x t ih =>
    intro v hv
    obtain ⟨q, e⟩ := x
    rw [List.map_cons] at hv
    obtain ⟨a, v', hae, hv', rfl⟩ :
        ∃ a v', a ≤ e ∧ List.Forall₂ (· ≤ ·) v' (t.map Prod.snd) ∧ v = a :: v' := by
      cases hv with
      | cons h1 h2 => exact ⟨_, _, h1, h2, rfl⟩
    have hz : value (((q, e) :: t |>.map Prod.fst).zip (a :: v')) =
        q ^ a * value ((t.map Prod.fst).zip v') := by
      simp [value]
    have hw : value ((q, e) :: t) = q ^ e * value t := by simp [value]
    rw [hz, hw]
    exact Nat.mul_dvd_mul (pow_dvd_pow q hae) (ih hv')

theorem dvd_value_exists_vec : ∀ {F : FactorsList}, WF F → ∀ {m : ℕ}, m ∣ value F →
    ∃ v, List.Forall₂ (· ≤ ·) v (F.map Prod.snd) ∧
      value ((F.map Prod.fst).zip v) = m := by
  intro F
  induction F with
  | nil =>
    intro _ m hm
    rw [show value [] = 1 from rfl, Nat.dvd_one] at hm
    exact ⟨[], List.Forall₂.nil, by rw [hm]; rfl⟩
  | cons x t ih =>
    intro hF m hm
    obtain ⟨q, e⟩ := x
    have hq : Nat.Prime q := WF_prime hF (q, e) (by simp)
    have hw : value ((q, e) :: t) = q ^ e * value t := by simp [value]
    rw [hw] at hm
    obtain ⟨y, z, hy, hz, hyz⟩ := Nat.dvd_mul.mp hm
    obtain ⟨i, hie, rfl⟩ := (Nat.dvd_prime_pow hq).mp hy
    obtain ⟨v', hv', hval⟩ := ih (WF_tail hF) hz
    refine ⟨i :: v', ?_, ?_⟩
    · rw [List.map_cons]
      exact List.Forall₂.cons hie hv'
    · have : value (((q, e) :: t |>.map Prod.fst).zip (i :: v')) =
          q ^ i * value ((t.map Prod.fst).zip v') := by
        simp [value]
      rw [this, hval, hyz]

/-- The divisor values produced by the iterator are exactly the divisors of
the represented integer. -/
theorem mem_divisors_values_iff {F : FactorsList} (hF : WF F) (m : ℕ) :
    m ∈ (divisorsList F).map value ↔ m ∣ value F := by
  constructor
  · intro hmem
    obtain ⟨d, hd, rfl⟩ := List.mem_map.mp hmem
    obtain ⟨v, hv, rfl⟩ := List.mem_map.mp hd
    rw [value_buildFactors]
    exact value_zip_dvd (odoTrace_valid hv)
  · intro hdvd
    obtain ⟨v, hv, hval⟩ := dvd_value_exists_vec hF hdvd
    refine List.mem_map.mpr ⟨buildFactors (F.map Prod.fst) v, ?_, ?_⟩
    · exact List.mem_map.mpr ⟨v, (mem_odoTrace_iff _ v).mpr hv, rfl⟩
    · rw [value_buildFactors, hval]

/-- C7: For every Factorization L, `erdos_construction.build_primes_set(L)`
returns exactly the set of primes p such that p-1 divides the value of L and
p does not divide the value of L. -/
theorem build_primes_set_base_spec (F : FactorsList) (hF : WF F) (p : ℕ) :
    p ∈ build_primes_set F ↔
      (Nat.Prime p ∧ (p - 1) ∣ value F ∧ ¬ p ∣ value F) := by
  unfold build_primes_set
  rw [List.mem_filter]
  constructor
  · rintro ⟨hmem, hcond⟩
    rw [Bool.and_eq_true] at hcond
    have hprime : Nat.Prime p := (trial_is_prime_iff p).mp hcond.1
    obtain ⟨d, hd, hdp⟩ := List.mem_map.mp hmem
    have hdvd : value d ∣ value F :=
      (mem_divisors_values_iff hF (value d)).mp (List.mem_map.mpr ⟨d, hd, rfl⟩)
    refine ⟨hprime, ?_, ?_⟩
    · have : p - 1 = value d := by omega
      rw [this]
      exact hdvd
    · intro hpdvd
      have := (prime_dvd_value_iff hF hprime).mp hpdvd
      rw [this] at hcond
      simpa using hcond.2
  · rintro ⟨hprime, hdvd, hndvd⟩
    have hp2 := hprime.two_le
    constructor
    · obtain ⟨d, hd, hdp⟩ := List.mem_map.mp ((mem_divisors_values_iff hF (p - 1)).mpr hdvd)
      exact List.mem_map.mpr ⟨d, hd, by omega⟩
    · rw [Bool.and_eq_true]
      refine ⟨(trial_is_prime_iff p).mpr hprime, ?_⟩
      have : containsKey F p = false := by
        rcases Bool.eq_false_or_eq_true (containsKey F p) with ht | hf
        · exact absurd ((prime_dvd_value_iff hF hprime).mpr ht) hndvd
        · exact hf
      rw [this]
      rfl

/-- Witness for C7 at L = 2⁴·3·5 = 240, p = 31. -/
theorem build_primes_set_base_spec_witness :
    31 ∈ build_primes_set [(2, 4), (3, 1), (5, 1)] ↔
      (Nat.Prime 31 ∧ (31 - 1) ∣ value [(2, 4), (3, 1), (5, 1)] ∧
        ¬ 31 ∣ value [(2, 4), (3, 1), (5, 1)]) :=
  build_primes_set_base_spec [(2, 4), (3, 1), (5, 1)] (by decide) 31


theorem pow_mod_pow_mod (n x k : ℕ) : (x % n) ^ k % n = x ^ k % n :=
  (Nat.pow_mod x k n).symm

theorem iter_pow_mod (n t q i : ℕ) :
    (t ^ q % n) ^ q ^ i % n = t ^ q ^ (i + 1) % n := by
  rw [pow_mod_pow_mod, ← pow_mul, ← pow_succ']

theorem orderExpLoop_eq (n q : ℕ) (hn : 2 ≤ n) :
    ∀ (fuel t g j : ℕ), t < n → (∀ i < j, t ^ q ^ i % n ≠ 1) →
    t ^ q ^ j % n = 1 → j < fuel → orderExpLoop n q fuel t g = some (g + j) := by
  intro fuel
  induction fuel with
  | zero => intro t g j _ _ _ hj; omega
  | succ fuel ih =>
    intro t g j ht hmin hj hfuel
    unfold orderExpLoop
    by_cases h1 : t = 1
    · subst h1
      have hj0 : j = 0 := by
        by_contra hj0
        exact hmin 0 (by omega)
          (by rw [pow_zero, pow_one]; exact Nat.mod_eq_of_lt (by omega))
      rw [if_pos rfl, hj0]
      rfl
    · rw [if_neg h1]
      have hj0 : j ≠ 0 := by
        intro h
        subst h
        rw [pow_zero, pow_one, Nat.mod_eq_of_lt ht] at hj
        exact h1 hj
      obtain ⟨j', rfl⟩ : ∃ j', j = j' + 1 := ⟨j - 1, by omega⟩
      have hgoal : g + (j' + 1) = (g + 1) + j' := by omega
      rw [hgoal]
      refine ih (t ^ q % n) (g + 1) j' (Nat.mod_lt _ (by omega)) ?_ ?_ (by omega)
      · intro i hi
        rw [iter_pow_mod]
        exact hmin (i + 1) (by omega)
      · rw [iter_pow_mod]
        exact hj

theorem getOrderExponent_finds (a n q e : ℕ) (hn : 2 ≤ n)
    (hex : ∃ j, a ^ ((n - 1) / q ^ e * q ^ j) % n = 1)
    (hfind : Nat.find hex < n + 1) :
    getOrderExponent a n q e = some (Nat.find hex) := by
  unfold getOrderExponent
  have hiter : ∀ j, (a ^ ((n - 1) / q ^ e) % n) ^ q ^ j % n =
      a ^ ((n - 1) / q ^ e * q ^ j) % n := by
    intro j
    rw [pow_mod_pow_mod, ← pow_mul]
  have := orderExpLoop_eq n q hn (n + 1) (a ^ ((n - 1) / q ^ e) % n) 0 (Nat.find hex)
    (Nat.mod_lt _ (by omega))
    (fun i hi => by rw [hiter]; exact Nat.find_min hex hi)
    (by rw [hiter]; exact Nat.find_spec hex) hfind
  simpa using this

theorem cast_pow_eq_one_iff (n : ℕ) (hn : 2 ≤ n) (x k : ℕ) :
    ((x : ZMod n) ^ k = 1) ↔ x ^ k % n = 1 := by
  have h1 : ((1 : ℕ) : ZMod n) = 1 := Nat.cast_one
  rw [← Nat.cast_pow, ← h1, ZMod.natCast_eq_natCast_iff]
  show x ^ k % n = 1 % n ↔ _
  rw [Nat.one_mod_eq_one.mpr (show n ≠ 1 by omega)]

theorem exponent_lt_self {q e m : ℕ} (hq : 2 ≤ q) (hm : 1 ≤ m)
    (hdvd : q ^ e ∣ m) : e < m + 1 := by
  have h1 : q ^ e ≤ m := Nat.le_of_dvd (by omega) hdvd
  have h2 : 2 ^ e ≤ q ^ e := Nat.pow_le_pow_left hq e
  have h3 : e < 2 ^ e := Nat.lt_two_pow e
  omega

theorem mem_keys_canon_iff {l : FactorsList} (h : Canon l) (r : ℕ) :
    r ∈ keys l ↔ expOf l r ≠ 0 := by
  constructor
  · intro hmem
    have := h.2 (r, expOf l r) (expOf_mem hmem)
    simp only at this
    omega
  · exact mem_keys_of_expOf_ne_zero

theorem getOrderExponent_eq_ord {n a q e : ℕ} (hn : 2 ≤ n) (hq : Nat.Prime q)
    (hfact : (n - 1).factorization q = e) (ha : a ^ (n - 1) % n = 1) :
    getOrderExponent a n q e = some ((orderOf ((a : ZMod n))).factorization q) ∧
    (orderOf ((a : ZMod n))).factorization q ≤ e := by
  have hn1 : n - 1 ≠ 0 := by omega
  have hdvd : q ^ e ∣ n - 1 := by
    rw [← hfact]
    exact Nat.ordProj_dvd _ _
  set d := orderOf ((a : ZMod n)) with hd
  have hane : (a : ZMod n) ^ (n - 1) = 1 := (cast_pow_eq_one_iff n hn a (n - 1)).mpr ha
  have hdn : d ∣ n - 1 := orderOf_dvd_of_pow_eq_one hane
  have hdne : d ≠ 0 := by
    have hfin : IsOfFinOrder ((a : ZMod n)) :=
      isOfFinOrder_iff_pow_eq_one.mpr ⟨n - 1, by omega, hane⟩
    have := orderOf_pos_iff.mpr hfin
    omega
  have hqM : ¬ q ∣ (n - 1) / q ^ e := by
    rw [← hfact]
    exact Nat.not_dvd_ordCompl hq hn1
  have hMe : (n - 1) / q ^ e * q ^ e = n - 1 := Nat.div_mul_cancel hdvd
  set M := (n - 1) / q ^ e with hM
  set f := d.factorization q with hf
  have hdf : q ^ f ∣ d := Nat.ordProj_dvd d q
  have hd'q : ¬ q ∣ d / q ^ f := Nat.not_dvd_ordCompl hq hdne
  have hdd' : q ^ f * (d / q ^ f) = d := Nat.ordProj_mul_ordCompl_eq_self d q
  have hcopq : q.Coprime (d / q ^ f) := hq.coprime_iff_not_dvd.mpr hd'q
  have hd'M : d / q ^ f ∣ M := by
    have h1 : (d / q ^ f).Coprime (q ^ e) := (hcopq.symm).pow_right e
    have hd2 : d / q ^ f ∣ d := Nat.ordCompl_dvd d q
    have h2 : d / q ^ f ∣ q ^ e * M := by
      have hqe : q ^ e * M = n - 1 := by rw [Nat.mul_comm]; exact hMe
      rw [hqe]
      exact hd2.trans hdn
    exact h1.dvd_of_dvd_mul_left h2
  have hP : ∀ j, (a ^ (M * q ^ j) % n = 1 ↔ f ≤ j) := by
    intro j
    rw [← cast_pow_eq_one_iff n hn, ← orderOf_dvd_iff_pow_eq_one]
    constructor
    · intro hdvdj
      have hqf : q ^ f ∣ M * q ^ j := dvd_trans hdf hdvdj
      have hcop : (q ^ f).Coprime M := (hq.coprime_iff_not_dvd.mpr hqM).pow_left f
      have h2 : q ^ f ∣ q ^ j := hcop.dvd_of_dvd_mul_left hqf
      exact (Nat.pow_dvd_pow_iff_le_right hq.one_lt).mp h2
    · intro hfj
      have h1 : q ^ f ∣ M * q ^ j := (pow_dvd_pow q hfj).mul_left M
      have h2 : d / q ^ f ∣ M * q ^ j := (hd'M).mul_right _
      have hcop2 : (q ^ f).Coprime (d / q ^ f) := hcopq.pow_left f
      have h3 := hcop2.mul_dvd_of_dvd_of_dvd h1 h2
      rwa [hdd'] at h3
  have hex : ∃ j, a ^ (M * q ^ j) % n = 1 := ⟨f, (hP f).mpr (le_refl f)⟩
  have hfind : Nat.find hex = f :=
    le_antisymm (Nat.find_min' hex ((hP f).mpr (le_refl f)))
      ((hP _).mp (Nat.find_spec hex))
  have hfe : f ≤ e := by
    have hle := (Nat.factorization_le_iff_dvd hdne hn1).mpr hdn
    have := Finsupp.le_def.mp hle q
    rw [hfact] at this
    exact this
  have helt : e < n := by
    have := exponent_lt_self hq.two_le (by omega) hdvd
    omega
  refine ⟨?_, hfe⟩
  have := getOrderExponent_finds a n q e hn hex (by omega)
  rwa [hfind] at this


theorem expOf_of_mem : ∀ {l : FactorsList}, (keys l).Nodup → ∀ {q e : ℕ},
    (q, e) ∈ l → expOf l q = e := by
  intro l
  induction l with
  | nil => intro _ q e h; simp at h
  | cons x t ih =>
    intro hnd q e h
    obtain ⟨k, f⟩ := x
    have hnd' : k ∉ keys t ∧ (keys t).Nodup := by
      have hkk : keys ((k, f) :: t) = k :: keys t := rfl
      rw [hkk] at hnd
      exact ⟨(List.nodup_cons.mp hnd).1, (List.nodup_cons.mp hnd).2⟩
    rcases List.mem_cons.mp h with heq | ht
    · rw [Prod.mk.injEq] at heq
      obtain ⟨rfl, rfl⟩ := heq
      rw [expOf_cons, if_pos rfl]
    · have hqt : q ∈ keys t := List.mem_map.mpr ⟨(q, e), ht, rfl⟩
      have hqk : q ≠ k := fun hh => hnd'.1 (hh ▸ hqt)
      rw [expOf_cons, if_neg hqk]
      exact ih hnd'.2 ht

theorem orderEntries_eq {a n : ℕ} (g : ℕ → ℕ) : ∀ l : FactorsList,
    (∀ qe ∈ l, getOrderExponent a n qe.1 qe.2 = some (g qe.1)) →
    orderEntries a n l = some (l.map (fun pe => (pe.1, g pe.1))) := by
  intro l
  induction l with
  | nil => intro _; rfl
  | cons x t ih =>
    intro h
    obtain ⟨q, e⟩ := x
    unfold orderEntries
    rw [h (q, e) (by simp), ih (fun qe hqe => h qe (by simp [hqe]))]
    rfl

theorem orderFac_spec {n a : ℕ} {fac : FactorsList} (hn : 2 ≤ n) (hwf : WF fac)
    (hval : value fac = n - 1) (ha : a ^ (n - 1) % n = 1) :
    ∃ odf, orderFac a n fac = some odf ∧ WF odf ∧
      value odf = orderOf ((a : ZMod n)) ∧
      (∀ r, r ∈ keys odf ↔ Nat.Prime r ∧ r ∣ orderOf ((a : ZMod n))) ∧
      ∀ qe ∈ fac, ∃ g, getOrderExponent a n qe.1 qe.2 = some g ∧ g ≤ qe.2 := by
  have hn1 : n - 1 ≠ 0 := by omega
  set d := orderOf ((a : ZMod n)) with hd
  have hane : (a : ZMod n) ^ (n - 1) = 1 := (cast_pow_eq_one_iff n hn a (n - 1)).mpr ha
  have hdn : d ∣ n - 1 := orderOf_dvd_of_pow_eq_one hane
  have hdne : d ≠ 0 := by
    have hfin : IsOfFinOrder ((a : ZMod n)) :=
      isOfFinOrder_iff_pow_eq_one.mpr ⟨n - 1, by omega, hane⟩
    have := orderOf_pos_iff.mpr hfin
    omega
  have hentry : ∀ qe ∈ fac, getOrderExponent a n qe.1 qe.2 =
      some (d.factorization qe.1) ∧ d.factorization qe.1 ≤ qe.2 := by
    intro qe hqe
    obtain ⟨q, e⟩ := qe
    have hq : Nat.Prime q := (trial_is_prime_iff q).mp (hwf.2 (q, e) hqe).2
    have hfq : (n - 1).factorization q = e := by
      rw [← hval, factorization_value hwf]
      exact expOf_of_mem (WF_keys_nodup hwf) hqe
    exact getOrderExponent_eq_ord hn hq hfq ha
  have hoe : orderEntries a n fac =
      some (fac.map (fun pe => (pe.1, d.factorization pe.1))) :=
    orderEntries_eq _ fac (fun qe hqe => (hentry qe hqe).1)
  set m := fac.map (fun pe => (pe.1, d.factorization pe.1)) with hm
  have hmk : m = (fac.map Prod.fst).map (fun r => (r, d.factorization r)) := by
    rw [hm, List.map_map]
    rfl
  have hkm : keys m = keys fac := by
    rw [hm]
    unfold keys
    rw [List.map_map]
    exact List.map_congr_left (fun pe _ => rfl)
  have hknd : (keys m).Nodup := by rw [hkm]; exact WF_keys_nodup hwf
  have hexp : ∀ r, expOf (standardForm m) r =
      if r ∈ keys fac then d.factorization r else 0 := by
    intro r
    rw [expOf_standardForm hknd, hmk, expOf_map_key_fn]
    rfl
  have hrkey : ∀ r, Nat.Prime r → r ∣ d → r ∈ keys fac := by
    intro r hr hrd
    have hrn : r ∣ n - 1 := hrd.trans hdn
    have h1 : 1 ≤ (n - 1).factorization r := (hr.dvd_iff_one_le_factorization hn1).mp hrn
    rw [← hval, factorization_value hwf] at h1
    exact mem_keys_of_expOf_ne_zero (by omega)
  have hwodf : WF (standardForm m) := by
    have hc := standardForm_canon hknd
    refine ⟨(chainKeysLT_iff _).mpr (List.chain'_iff_pairwise.mpr hc.1),
      fun pe hpe => ⟨hc.2 pe hpe, ?_⟩⟩
    have hmem := standardForm_sub _ pe hpe
    rw [hmk] at hmem
    obtain ⟨r, hr, rfl⟩ := List.mem_map.mp hmem
    exact WF_key_prime hwf hr
  have hvodf : value (standardForm m) = d := by
    refine Nat.eq_of_factorization_eq (by have := WF_value_pos hwodf; omega) hdne
      (fun r => ?_)
    rw [factorization_value hwodf, hexp]
    by_cases hrk : r ∈ keys fac
    · rw [if_pos hrk]
    · rw [if_neg hrk]
      by_contra h0
      have hne : d.factorization r ≠ 0 := fun hh => h0 (by rw [hh])
      have hrsupp : r ∈ d.primeFactors := by
        rw [← Nat.support_factorization]
        exact Finsupp.mem_support_iff.mpr hne
      exact hrk (hrkey r (Nat.prime_of_mem_primeFactors hrsupp)
        (Nat.dvd_of_mem_primeFactors hrsupp))
  have hkeys : ∀ r, r ∈ keys (standardForm m) ↔ Nat.Prime r ∧ r ∣ d := by
    intro r
    rw [mem_keys_canon_iff (WF_canon hwodf), hexp]
    by_cases hrk : r ∈ keys fac
    · rw [if_pos hrk]
      constructor
      · intro hne
        have hrsupp : r ∈ d.primeFactors := by
          rw [← Nat.support_factorization]
          exact Finsupp.mem_support_iff.mpr hne
        exact ⟨Nat.prime_of_mem_primeFactors hrsupp, Nat.dvd_of_mem_primeFactors hrsupp⟩
      · rintro ⟨hr, hrd⟩
        have := (hr.dvd_iff_one_le_factorization hdne).mp hrd
        omega
    · rw [if_neg hrk]
      constructor
      · intro hh
        exact absurd rfl hh
      · rintro ⟨hr, hrd⟩
        exact absurd (hrkey r hr hrd) hrk
  refine ⟨standardForm m, ?_, hwodf, hvodf, hkeys,
    fun qe hqe => ⟨d.factorization qe.1, (hentry qe hqe).1, (hentry qe hqe).2⟩⟩
  unfold orderFac
  rw [hoe]
  rfl


theorem fkLoop_cons_eq (n : ℕ) (fac : FactorsList) (a : ℕ) (as : List ℕ)
    (h : Option FactorsList) {odf : FactorsList}
    (hferm : a ^ (n - 1) % n = 1) (hodf : orderFac a n fac = some odf) :
    fkLoop n fac (a :: as) h =
      if ((keys odf).any
          (fun q => decide (1 < Nat.gcd (sub_mod (a ^ (value odf / q) % n) 1 n) n))) = true
      then some false
      else fkLoop n fac as (some (h.elim odf (fun hf => lcmFactors hf odf))) := by
  cases h with
  | none =>
    conv_lhs => unfold fkLoop
    rw [if_neg (fun hc => hc hferm), hodf]
    rfl
  | some hf =>
    conv_lhs => unfold fkLoop
    rw [if_neg (fun hc => hc hferm), hodf]
    rfl

theorem order_dvd_minFac_sub_one {n a p : ℕ} {odf : FactorsList}
    (hn : 2 ≤ n) (hp : p.Prime) (hpn : p ∣ n)
    (hvodf : value odf = orderOf ((a : ZMod n)))
    (hkeys : ∀ r, r ∈ keys odf ↔ Nat.Prime r ∧ r ∣ orderOf ((a : ZMod n)))
    (hdne : orderOf ((a : ZMod n)) ≠ 0)
    (hgcd : ∀ q ∈ keys odf,
      ¬ 1 < Nat.gcd (sub_mod (a ^ (value odf / q) % n) 1 n) n) :
    value odf ∣ p - 1 := by
  haveI : Fact p.Prime := ⟨hp⟩
  have hp2 : 2 ≤ p := hp.two_le
  set d := orderOf ((a : ZMod n)) with hd
  have had : a ^ d % n = 1 := (cast_pow_eq_one_iff n hn a d).mp (pow_orderOf_eq_one _)
  have hadp : (a : ZMod p) ^ d = 1 := by
    apply (cast_pow_eq_one_iff p hp2 a d).mpr
    have h1 : a ^ d ≡ 1 [MOD n] := by
      show a ^ d % n = 1 % n
      rw [had, Nat.one_mod_eq_one.mpr (by omega)]
    have h2 : a ^ d ≡ 1 [MOD p] := Nat.ModEq.of_dvd hpn h1
    have h3 : a ^ d % p = 1 % p := h2
    rwa [Nat.one_mod_eq_one.mpr (by omega)] at h3
  set dp := orderOf ((a : ZMod p)) with hdp
  have hdpd : dp ∣ d := orderOf_dvd_of_pow_eq_one hadp
  have hdp_eq : dp = d := by
    by_contra hne
    obtain ⟨r, hr, hrd, hdvd2⟩ : ∃ r, Nat.Prime r ∧ r ∣ d ∧ dp ∣ d / r := by
      obtain ⟨c, hc⟩ := hdpd
      have hc0 : c ≠ 0 := by
        intro hh
        rw [hh, Nat.mul_zero] at hc
        exact hdne hc
      have hc1 : c ≠ 1 := by
        intro hh
        rw [hh, Nat.mul_one] at hc
        exact hne hc.symm
      have hcd : c ∣ d := ⟨dp, by rw [hc]; ring⟩
      refine ⟨c.minFac, Nat.minFac_prime hc1, (Nat.minFac_dvd c).trans hcd, ?_⟩
      have hrc : c.minFac ∣ c := Nat.minFac_dvd c
      have hdc : d / c.minFac = dp * (c / c.minFac) := by
        rw [hc, Nat.mul_div_assoc dp hrc]
      rw [hdc]
      exact Dvd.intro _ rfl
    have hrkey : r ∈ keys odf := (hkeys r).mpr ⟨hr, hrd⟩
    have hgr := hgcd r hrkey
    rw [hvodf] at hgr
    have hadr : (a : ZMod p) ^ (d / r) = 1 := orderOf_dvd_iff_pow_eq_one.mp hdvd2
    have hadrm : a ^ (d / r) % p = 1 := (cast_pow_eq_one_iff p hp2 a (d / r)).mp hadr
    set x := a ^ (d / r) % n with hx
    have hxp : x % p = 1 := by
      have h1 : x ≡ a ^ (d / r) [MOD n] := Nat.mod_modEq _ n
      have h2 : x ≡ a ^ (d / r) [MOD p] := Nat.ModEq.of_dvd hpn h1
      have h3 : x % p = a ^ (d / r) % p := h2
      rw [h3, hadrm]
    have hxn : x < n := Nat.mod_lt _ (by omega)
    rcases Nat.eq_zero_or_pos x with hx0 | hxpos
    · rw [hx0, Nat.zero_mod] at hxp
      exact absurd hxp (by omega)
    · have hsm : sub_mod x 1 n = x - 1 := by
        unfold sub_mod
        rw [Nat.mod_eq_of_lt hxn, Nat.one_mod_eq_one.mpr (by omega)]
        rw [if_pos (by omega)]
      rcases Nat.lt_or_ge x 2 with hx1 | hx2
      · have hx1' : x = 1 := by omega
        apply hgr
        rw [hsm, hx1']
        rw [show (1 : ℕ) - 1 = 0 from rfl, Nat.gcd_zero_left]
        omega
      · have hpx : p ∣ x - 1 := by
          have h4 : 1 ≡ x [MOD p] := by
            show 1 % p = x % p
            rw [hxp, Nat.one_mod_eq_one.mpr (by omega)]
          exact (Nat.modEq_iff_dvd' (by omega)).mp h4
        apply hgr
        rw [hsm]
        have hpg : p ∣ Nat.gcd (x - 1) n := Nat.dvd_gcd hpx hpn
        have hgpos : 0 < Nat.gcd (x - 1) n := Nat.gcd_pos_of_pos_right _ (by omega)
        have := Nat.le_of_dvd hgpos hpg
        omega
  have hap : (a : ZMod p) ≠ 0 := by
    intro h0
    rw [h0, zero_pow hdne] at hadp
    exact zero_ne_one hadp
  have hfermat : (a : ZMod p) ^ (p - 1) = 1 := ZMod.pow_card_sub_one_eq_one hap
  have hdvd3 : dp ∣ p - 1 := orderOf_dvd_of_pow_eq_one hfermat
  rw [hvodf, ← hdp_eq]
  exact hdvd3

theorem fkLoop_composite {n : ℕ} {fac : FactorsList} (hn2 : 2 ≤ n)
    (hodd : n % 2 = 1) (hcomp : ¬ n.Prime) (hwf : WF fac)
    (hval : value fac = n - 1) :
    ∀ (as : List ℕ) (h : Option FactorsList),
    (∀ hf, h = some hf → WF hf ∧ value hf ∣ n.minFac - 1) →
    (h ≠ none ∨ as ≠ []) → fkLoop n fac as h = some false := by
  have hp : n.minFac.Prime := Nat.minFac_prime (by omega)
  have hpn : n.minFac ∣ n := Nat.minFac_dvd n
  have hsq : n.minFac ^ 2 ≤ n := Nat.minFac_sq_le_self (by omega) hcomp
  intro as
  induction as with
  | nil =>
    intro h hinv hne
    cases h with
    | none =>
      rcases hne with h1 | h2
      · exact absurd rfl h1
      · exact absurd rfl h2
    | some hf =>
      obtain ⟨hwhf, hdvd⟩ := hinv hf rfl
      show some (decide (isqrt n + 1 ≤ value hf)) = some false
      congr 1
      rw [decide_eq_false_iff_not]
      intro hle
      have hple : n.minFac ≤ Nat.sqrt n := by
        rw [Nat.le_sqrt]
        rw [pow_two] at hsq
        exact hsq
      have hvle : value hf ≤ n.minFac - 1 :=
        Nat.le_of_dvd (by have := hp.two_le; omega) hdvd
      rw [isqrt_eq] at hle
      have := hp.two_le
      omega
  | cons a as ih =>
    intro h hinv hne
    by_cases hferm : a ^ (n - 1) % n ≠ 1
    · unfold fkLoop
      rw [if_pos hferm]
    · push_neg at hferm
      obtain ⟨odf, hodf, hwodf, hvodf, hkodf, _⟩ := orderFac_spec hn2 hwf hval hferm
      rw [fkLoop_cons_eq n fac a as h hferm hodf]
      by_cases hany : (keys odf).any
          (fun q => decide (1 < Nat.gcd (sub_mod (a ^ (value odf / q) % n) 1 n) n)) = true
      · rw [if_pos hany]
      · rw [if_neg hany]
        have hgcd : ∀ q ∈ keys odf,
            ¬ 1 < Nat.gcd (sub_mod (a ^ (value odf / q) % n) 1 n) n := by
          intro q hq hlt
          exact hany (List.any_eq_true.mpr ⟨q, hq, decide_eq_true hlt⟩)
        have hdne : orderOf ((a : ZMod n)) ≠ 0 := by
          rw [← hvodf]
          have := WF_value_pos hwodf
          omega
        have hdvd : value odf ∣ n.minFac - 1 :=
          order_dvd_minFac_sub_one hn2 hp hpn hvodf hkodf hdne hgcd
        apply ih
        · intro hf hf_eq
          cases h with
          | none =>
            exact (Option.some.inj hf_eq) ▸ ⟨hwodf, hdvd⟩
          | some hf' =>
            obtain ⟨hw', hd'⟩ := hinv hf' rfl
            refine (Option.some.inj hf_eq) ▸ ⟨WF_lcmFactors hw' hwodf, ?_⟩
            show value (lcmFactors hf' odf) ∣ n.minFac - 1
            rw [value_lcmFactors hw' hwodf]
            exact Nat.lcm_dvd hd' hdvd
        · exact Or.inl (by simp)

theorem fkLoop_not_none {n : ℕ} {fac : FactorsList} (hn2 : 2 ≤ n)
    (hwf : WF fac) (hval : value fac = n - 1) :
    ∀ (as : List ℕ) (h : Option FactorsList), (h = none → as ≠ []) →
    fkLoop n fac as h ≠ none := by
  intro as
  induction as with
  | nil =>
    intro h hcond
    cases h with
    | none => exact absurd rfl (hcond rfl)
    | some hf => simp [fkLoop]
  | cons a as ih =>
    intro h _
    by_cases hferm : a ^ (n - 1) % n ≠ 1
    · unfold fkLoop
      rw [if_pos hferm]
      simp
    · push_neg at hferm
      obtain ⟨odf, hodf, _, _, _, _⟩ := orderFac_spec hn2 hwf hval hferm
      rw [fkLoop_cons_eq n fac a as h hferm hodf]
      by_cases hany : (keys odf).any
          (fun q => decide (1 < Nat.gcd (sub_mod (a ^ (value odf / q) % n) 1 n) n)) = true
      · rw [if_pos hany]
        simp
      · rw [if_neg hany]
        exact ih _ (fun hc => Option.noConfusion hc)

/-- C1: For every composite integer n, if the supplied Factorization is the
exact prime factorization of n-1, then `fellows_koblitz.is_prime(n,
factorization)` returns False — for every witness bound B ≥ 2 that the
floating-point computation `floor(log(n)**2)` can produce (the real bound is
at least 2 for every n ≥ 5). -/
theorem fellows_koblitz_composite_false (n : ℕ) (fac : FactorsList) (B : ℕ)
    (hB : 2 ≤ B) (hn : 2 ≤ n) (hcomp : ¬ Nat.Prime n) (hwf : WF fac)
    (hval : value fac = n - 1) :
    fk_is_prime n fac B = some false := by
  unfold fk_is_prime
  have h23 : ¬ (n = 2 ∨ n = 3) := by
    rintro (rfl | rfl)
    · exact hcomp Nat.prime_two
    · exact hcomp Nat.prime_three
  rw [if_neg h23]
  by_cases heven : n < 2 ∨ n % 2 = 0
  · rw [if_pos heven]
  · rw [if_neg heven]
    push_neg at heven
    have hodd : n % 2 = 1 := by omega
    apply fkLoop_composite hn hodd hcomp hwf hval
    · exact fun hf hc => Option.noConfusion hc
    · right
      intro hemp
      have hlen := congrArg List.length hemp
      simp at hlen
      omega

/-- Witness for C1 at the composite n = 9 with 8 = 2³ and B = 4
(= floor(log(9)²)). -/
theorem fellows_koblitz_composite_false_witness :
    fk_is_prime 9 [(2, 3)] 4 = some false :=
  fellows_koblitz_composite_false 9 [(2, 3)] 4 (by decide) (by decide) (by decide)
    (by decide) (by decide)

/-- C10: For every odd n ≥ 5 and every Factorization that is the exact prime
factorization of n-1, `is_prime(n, factorization)` terminates (for any
witness bound B ≥ 2): whenever the order computation is reached the Fermat
congruence a^(n-1) ≡ 1 (mod n) has already been verified, so the while-loop
of `__get_order_exponent` reaches 1 within `exponent` steps and each
per-prime order exponent g satisfies 0 ≤ g ≤ exponent. -/
theorem fellows_koblitz_terminates (n : ℕ) (fac : FactorsList) (B : ℕ)
    (hn : 5 ≤ n) (hodd : n % 2 = 1) (hB : 2 ≤ B) (hwf : WF fac)
    (hval : value fac = n - 1) :
    fk_is_prime n fac B ≠ none ∧
    (∀ a q e, a ^ (n - 1) % n = 1 → (q, e) ∈ fac →
      ∃ g, getOrderExponent a n q e = some g ∧ g ≤ e) := by
  constructor
  · unfold fk_is_prime
    by_cases h23 : n = 2 ∨ n = 3
    · rw [if_pos h23]
      simp
    · rw [if_neg h23]
      by_cases heven : n < 2 ∨ n % 2 = 0
      · rw [if_pos heven]
        simp
      · rw [if_neg heven]
        apply fkLoop_not_none (by omega) hwf hval
        intro _ hemp
        have hlen := congrArg List.length hemp
        simp at hlen
        omega
  · intro a q e ha hmem
    obtain ⟨odf, _, _, _, _, hterm⟩ := orderFac_spec (by omega) hwf hval ha
    exact hterm (q, e) hmem

/-- Witness for C10 at n = 9, 8 = 2³, B = 4. -/
theorem fellows_koblitz_terminates_witness :
    fk_is_prime 9 [(2, 3)] 4 ≠ none ∧
    (∀ a q e, a ^ (9 - 1) % 9 = 1 → (q, e) ∈ ([(2, 3)] : FactorsList) →
      ∃ g, getOrderExponent a 9 q e = some g ∧ g ≤ e) :=
  fellows_koblitz_terminates 9 [(2, 3)] 4 (by decide) (by decide) (by decide)
    (by decide) (by decide)

/-!
### The corrected partition property (`build_primes_set_partition`)

The counterexample above shows the partitioned variant is NOT equivalent to
`build_primes_set` (the latter bounds divisors by the k-th integer root of
the value; the partitioned iterator enumerates all divisors).  The corrected
statement proved below: when the factorization is nonempty and has at least
K divisors (so the constructor does not raise, cf. the C5 bug) the K
partitioned calls all succeed, their results are pairwise disjoint, and
their union is exactly the `_is_valid_prime` filter applied to ALL divisors.
-/

theorem partitionKeysIndexGo_cons (K product index e : ℕ) (rest : List ℕ) :
    partitionKeysIndexGo K product index (e :: rest) =
      if K ≤ product * (e + 1) then some index
      else partitionKeysIndexGo K (product * (e + 1)) (index + 1) rest := rfl

theorem partitionKeysIndexGo_some {K : ℕ} : ∀ (es : List ℕ) (product index : ℕ),
    es ≠ [] → K ≤ product * countN es →
    ∃ idx, partitionKeysIndexGo K product index es = some idx ∧
      idx < index + es.length := by
  intro es
  induction es with
  | nil => intro _ _ h _; exact absurd rfl h
  | cons e rest ih =>
    intro product index _ hK
    rw [partitionKeysIndexGo_cons]
    by_cases hc : K ≤ product * (e + 1)
    · refine ⟨index, by rw [if_pos hc], ?_⟩
      simp only [List.length_cons]
      omega
    · rw [if_neg hc]
      cases rest with
      | nil =>
        exfalso
        have hcn : countN [e] = e + 1 := by simp [countN]
        rw [hcn] at hK
        exact hc hK
      | cons e2 rest2 =>
        have hcn : countN (e :: e2 :: rest2) = (e + 1) * countN (e2 :: rest2) := by
          simp [countN]
        obtain ⟨idx, hgo, hlt⟩ := ih (product * (e + 1)) (index + 1) (by simp) (by
          rw [Nat.mul_assoc, ← hcn]
          exact hK)
        refine ⟨idx, hgo, ?_⟩
        simp only [List.length_cons] at hlt ⊢
        omega

theorem drop_take_flatten {α : Type} (values : List α) (o : ℕ → ℕ)
    (hmono : ∀ i, o i ≤ o (i + 1)) :
    ∀ (c j : ℕ), o (j + c) = values.length →
    (List.flatten ((List.range' j c).map
      (fun i => (values.drop (o i)).take (o (i + 1) - o i)))) = values.drop (o j) := by
  intro c
  induction c with
  | zero =>
    intro j hlen
    rw [Nat.add_zero] at hlen
    show ([] : List α) = values.drop (o j)
    rw [hlen, List.drop_length]
  | succ c ih =>
    intro j hlen
    rw [List.range'_succ, List.map_cons, List.flatten_cons]
    rw [ih (j + 1) (by rw [show j + 1 + c = j + (c + 1) from by omega, hlen])]
    have h1 : values.drop (o (j + 1)) = (values.drop (o j)).drop (o (j + 1) - o j) := by
      rw [List.drop_drop]
      congr 1
      have := hmono j
      omega
    rw [h1, List.take_append_drop]

theorem split_equally_flatten {α : Type} (values : List α) (K : ℕ) (hK : 1 ≤ K) :
    (split_equally values K).flatten = values := by
  have hmod : values.length % K < K := Nat.mod_lt _ (by omega)
  have h := drop_take_flatten values
    (fun i => i * (values.length / K) + min i (values.length % K))
    (fun i => by
      show i * (values.length / K) + min i (values.length % K) ≤
        (i + 1) * (values.length / K) + min (i + 1) (values.length % K)
      have h1 : i * (values.length / K) ≤ (i + 1) * (values.length / K) :=
        Nat.mul_le_mul_right _ (by omega)
      omega)
    K 0 (by
      show (0 + K) * (values.length / K) + min (0 + K) (values.length % K) =
        values.length
      rw [Nat.zero_add, Nat.min_eq_right (by omega)]
      exact Nat.div_add_mod values.length K)
  refine Eq.trans ?_ (h.trans ?_)
  · show List.flatten ((List.range K).map (fun i =>
      (values.drop (i * (values.length / K) + min i (values.length % K))).take
        ((i + 1) * (values.length / K) + min (i + 1) (values.length % K) -
          (i * (values.length / K) + min i (values.length % K))))) =
      List.flatten ((List.range' 0 K).map (fun i =>
      (values.drop (i * (values.length / K) + min i (values.length % K))).take
        ((i + 1) * (values.length / K) + min (i + 1) (values.length % K) -
          (i * (values.length / K) + min i (values.length % K)))))
    rw [List.range_eq_range']
  · show values.drop (0 * (values.length / K) + min 0 (values.length % K)) = values
    rw [show 0 * (values.length / K) + min 0 (values.length % K) = 0 from by omega,
      List.drop_zero]

theorem split_equally_getD {α : Type} (values : List α) (K i : ℕ) (hi : i < K) :
    (split_equally values K).getD i [] =
      (values.drop (i * (values.length / K) + min i (values.length % K))).take
        ((i + 1) * (values.length / K) + min (i + 1) (values.length % K) -
          (i * (values.length / K) + min i (values.length % K))) := by
  show (((List.range K).map (fun j =>
      (values.drop (j * (values.length / K) + min j (values.length % K))).take
        ((j + 1) * (values.length / K) + min (j + 1) (values.length % K) -
          (j * (values.length / K) + min j (values.length % K))))).getD i []) = _
  rw [List.getD_eq_getElem?_getD, List.getElem?_map, List.getElem?_range hi]
  rfl

theorem split_equally_getD_subset {α : Type} {values : List α} {K i : ℕ} (hi : i < K)
    {x : α} (hx : x ∈ (split_equally values K).getD i []) : x ∈ values := by
  rw [split_equally_getD values K i hi] at hx
  exact List.mem_of_mem_drop (List.mem_of_mem_take hx)

theorem split_equally_cover {α : Type} {values : List α} {K : ℕ} (hK : 1 ≤ K) (x : α) :
    x ∈ values ↔ ∃ i, i < K ∧ x ∈ (split_equally values K).getD i [] := by
  constructor
  · intro hx
    have hx2 : x ∈ (split_equally values K).flatten := by
      rw [split_equally_flatten values K hK]
      exact hx
    obtain ⟨l, hl, hxl⟩ := List.mem_flatten.mp hx2
    have hl2 : l ∈ (List.range K).map (fun j =>
        (values.drop (j * (values.length / K) + min j (values.length % K))).take
          ((j + 1) * (values.length / K) + min (j + 1) (values.length % K) -
            (j * (values.length / K) + min j (values.length % K)))) := hl
    obtain ⟨j, hjr, hjl⟩ := List.mem_map.mp hl2
    have hj : j < K := List.mem_range.mp hjr
    refine ⟨j, hj, ?_⟩
    rw [split_equally_getD values K j hj]
    rw [← hjl] at hxl
    exact hxl
  · rintro ⟨i, hi, hxi⟩
    exact split_equally_getD_subset hi hxi

theorem split_equally_disjoint {α : Type} {values : List α} (hnd : values.Nodup)
    {K i j : ℕ} (hK : 1 ≤ K) (hi : i < K) (hj : j < K) (hij : i ≠ j) {x : α}
    (hxi : x ∈ (split_equally values K).getD i []) :
    x ∉ (split_equally values K).getD j [] := by
  have hflat : ((split_equally values K).flatten).Nodup := by
    rw [split_equally_flatten values K hK]
    exact hnd
  have hpw := (List.nodup_flatten.mp hflat).2
  have hpw2 : ((List.range K).map (fun a =>
      (values.drop (a * (values.length / K) + min a (values.length % K))).take
        ((a + 1) * (values.length / K) + min (a + 1) (values.length % K) -
          (a * (values.length / K) + min a (values.length % K))))).Pairwise
      List.Disjoint := hpw
  rw [List.pairwise_map] at hpw2
  have hget := List.pairwise_iff_get.mp hpw2
  have hKlen : (List.range K).length = K := List.length_range K
  rw [split_equally_getD values K i hi] at hxi
  rw [split_equally_getD values K j hj]
  rcases Nat.lt_or_ge i j with hlt | hge
  · have hd := hget ⟨i, by omega⟩ ⟨j, by omega⟩ (by simpa using hlt)
    simp only [List.get_eq_getElem, List.getElem_range] at hd
    exact hd hxi
  · have hjl : j < i := by omega
    have hd := hget ⟨j, by omega⟩ ⟨i, by omega⟩ (by simpa using hjl)
    simp only [List.get_eq_getElem, List.getElem_range] at hd
    intro hxj
    exact hd hxj hxi

theorem split_equally_map_getD {α β : Type} (f : α → β) (l : List α) (K i : ℕ)
    (hi : i < K) :
    (split_equally (l.map f) K).getD i [] = ((split_equally l K).getD i []).map f := by
  rw [split_equally_getD _ K i hi, split_equally_getD _ K i hi]
  simp only [List.length_map]
  rw [← List.map_drop, ← List.map_take]

theorem keys_standardForm_sub (l : FactorsList) :
    ∀ q ∈ keys (standardForm l), q ∈ keys l := by
  intro q hq
  obtain ⟨pe, hpe, rfl⟩ := List.mem_map.mp hq
  exact List.mem_map_of_mem Prod.fst (standardForm_sub l pe hpe)

theorem keys_canon_nodup {l : FactorsList} (h : Canon l) : (keys l).Nodup := by
  show (l.map Prod.fst).Pairwise (fun a b => a ≠ b)
  refine List.pairwise_map.mpr ?_
  exact h.1.imp (fun hab => Nat.ne_of_lt hab)

theorem dictOr_disjoint_eq {a b : FactorsList}
    (hdisj : ∀ q, q ∈ keys a → q ∉ keys b) : dictOr a b = a ++ b := by
  unfold dictOr
  have h1 : a.map (fun pe => if containsKey b pe.1 then (pe.1, expOf b pe.1) else pe)
      = a := by
    have hcong : ∀ pe ∈ a,
        (if containsKey b pe.1 then (pe.1, expOf b pe.1) else pe) = id pe := by
      intro pe hpe
      have hnb : ¬ containsKey b pe.1 = true := by
        rw [containsKey_iff]
        exact hdisj pe.1 (List.mem_map_of_mem Prod.fst hpe)
      rw [if_neg hnb]
      rfl
    rw [List.map_congr_left hcong, List.map_id]
  have h2 : b.filter (fun pe => !containsKey a pe.1) = b := by
    rw [List.filter_eq_self]
    intro pe hpe
    have hna : ¬ containsKey a pe.1 = true := by
      intro hc
      exact hdisj pe.1 ((containsKey_iff a pe.1).mp hc)
        (List.mem_map_of_mem Prod.fst hpe)
    simp [hna]
  rw [h1, h2]

theorem standardForm_append_combine {a b : FactorsList}
    (hna : (keys a).Nodup) (hnb : (keys b).Nodup)
    (hdisj : (keys a).Disjoint (keys b)) :
    standardForm (standardForm a ++ standardForm b) = standardForm (a ++ b) := by
  have hsa := standardForm_canon hna
  have hsb := standardForm_canon hnb
  have hsub_a := keys_standardForm_sub a
  have hsub_b := keys_standardForm_sub b
  have hnd_ab : (keys (standardForm a ++ standardForm b)).Nodup := by
    rw [show keys (standardForm a ++ standardForm b) =
        keys (standardForm a) ++ keys (standardForm b) from by simp [keys],
      List.nodup_append]
    exact ⟨keys_canon_nodup hsa, keys_canon_nodup hsb,
      fun q hqa hqb => hdisj (hsub_a q hqa) (hsub_b q hqb)⟩
  have hnd_ab2 : (keys (a ++ b)).Nodup := by
    rw [show keys (a ++ b) = keys a ++ keys b from by simp [keys], List.nodup_append]
    exact ⟨hna, hnb, hdisj⟩
  refine canon_ext (standardForm_canon hnd_ab) (standardForm_canon hnd_ab2) ?_
  intro p
  rw [expOf_standardForm hnd_ab, expOf_standardForm hnd_ab2]
  rw [expOf_append, expOf_append]
  by_cases hca : containsKey (standardForm a) p = true
  · rw [if_pos hca]
    have hpa : p ∈ keys a := hsub_a p ((containsKey_iff _ _).mp hca)
    rw [if_pos ((containsKey_iff _ _).mpr hpa)]
    exact expOf_standardForm hna p
  · rw [if_neg hca]
    by_cases hc : containsKey a p = true
    · rw [if_pos hc]
      have hpa : p ∈ keys a := (containsKey_iff _ _).mp hc
      have h0a : expOf a p = 0 := by
        rw [← expOf_standardForm hna p]
        exact expOf_eq_zero_of_not_mem
          (fun hmem => hca ((containsKey_iff _ _).mpr hmem))
      have hpb : p ∉ keys b := fun hmem => hdisj hpa hmem
      have h0b : expOf (standardForm b) p = 0 := by
        rw [expOf_standardForm hnb]
        exact expOf_eq_zero_of_not_mem hpb
      rw [h0a, h0b]
    · rw [if_neg hc]
      exact expOf_standardForm hnb p

theorem dictOr_buildFactors {ps1 ps2 v1 v2 : List ℕ}
    (hnd : (ps1 ++ ps2).Nodup) (hv1 : v1.length = ps1.length)
    (hv2 : v2.length = ps2.length) :
    standardForm (dictOr (buildFactors ps1 v1) (buildFactors ps2 v2)) =
      buildFactors (ps1 ++ ps2) (v1 ++ v2) := by
  rw [List.nodup_append] at hnd
  obtain ⟨hn1, hn2, hdisj⟩ := hnd
  have hdk : ∀ q, q ∈ keys (buildFactors ps1 v1) → q ∉ keys (buildFactors ps2 v2) := by
    intro q hq1 hq2
    have h1 : q ∈ ps1 := by
      have hs := keys_standardForm_sub _ q hq1
      rwa [keys_zip hv1] at hs
    have h2 : q ∈ ps2 := by
      have hs := keys_standardForm_sub _ q hq2
      rwa [keys_zip hv2] at hs
    exact hdisj h1 h2
  rw [dictOr_disjoint_eq hdk]
  show standardForm (standardForm (ps1.zip v1) ++ standardForm (ps2.zip v2)) =
    standardForm ((ps1 ++ ps2).zip (v1 ++ v2))
  rw [standardForm_append_combine (by rw [keys_zip hv1]; exact hn1)
    (by rw [keys_zip hv2]; exact hn2)
    (by rw [keys_zip hv1, keys_zip hv2]; exact hdisj)]
  rw [List.zip_append (by omega)]

theorem partIter_eq {L : FactorsList} {K : ℕ} (hL : L ≠ [])
    (hKc : K ≤ divisors_count L) :
    ∃ m, 1 ≤ m ∧ m ≤ L.length ∧ ∀ i,
      partIter L i K = some
        (((split_equally (divisorsList (L.take m)) K).getD i []).flatMap
          (fun kd => (divisorsList (L.drop m)).map
            (fun rd => standardForm (dictOr kd rd)))) := by
  have hes : L.map Prod.snd ≠ [] := by simpa using hL
  have hcnt : K ≤ 1 * countN (L.map Prod.snd) := by
    rw [Nat.one_mul, ← divisors_count_eq]
    exact hKc
  obtain ⟨idx, hgo, hlt⟩ := partitionKeysIndexGo_some (L.map Prod.snd) 1 0 hes hcnt
  have hlen : (L.map Prod.snd).length = L.length := by simp
  refine ⟨idx + 1, by omega, by omega, ?_⟩
  intro i
  simp only [partIter, partitionKeysIndex]
  rw [hgo]

theorem partition_divisors_spec {L : FactorsList} {K : ℕ} (hwf : WF L) (hL : L ≠ [])
    (hK : 1 ≤ K) (hKc : K ≤ divisors_count L) :
    ∃ D : ℕ → List FactorsList,
      (∀ i, partIter L i K = some (D i)) ∧
      (∀ i, i < K → ∀ d ∈ D i, WF d) ∧
      (∀ i j, i < K → j < K → i ≠ j → ∀ d ∈ D i, d ∉ D j) ∧
      (∀ d, d ∈ divisorsList L ↔ ∃ i, i < K ∧ d ∈ D i) := by
  obtain ⟨m, hm1, hmle, hpe⟩ := partIter_eq hL hKc
  have hlen_ps : (L.map Prod.fst).length = L.length := by simp
  have hlen_es : (L.map Prod.snd).length = L.length := by simp
  have hndps : ((L.map Prod.fst).take m ++ (L.map Prod.fst).drop m).Nodup := by
    rw [List.take_append_drop]
    exact WF_keys_nodup hwf
  have hdivP : divisorsList (L.take m) =
      (odoTrace ((L.map Prod.snd).take m)).map
        (buildFactors ((L.map Prod.fst).take m)) := by
    unfold divisorsList
    rw [List.map_take, List.map_take]
  have hdivR : divisorsList (L.drop m) =
      (odoTrace ((L.map Prod.snd).drop m)).map
        (buildFactors ((L.map Prod.fst).drop m)) := by
    unfold divisorsList
    rw [List.map_drop, List.map_drop]
  have hchar : ∀ i, i < K → ∀ d : FactorsList,
      (d ∈ ((split_equally (divisorsList (L.take m)) K).getD i []).flatMap
        (fun kd => (divisorsList (L.drop m)).map
          (fun rd => standardForm (dictOr kd rd))) ↔
      ∃ v1, v1 ∈ (split_equally (odoTrace ((L.map Prod.snd).take m)) K).getD i [] ∧
        ∃ v2, v2 ∈ odoTrace ((L.map Prod.snd).drop m) ∧
          d = buildFactors (L.map Prod.fst) (v1 ++ v2)) := by
    intro i hi d
    constructor
    · intro hd
      obtain ⟨kd, hkd, hd2⟩ := List.mem_flatMap.mp hd
      rw [hdivP, split_equally_map_getD _ _ K i hi] at hkd
      obtain ⟨v1, hv1, rfl⟩ := List.mem_map.mp hkd
      rw [hdivR] at hd2
      obtain ⟨rd, hrd, rfl⟩ := List.mem_map.mp hd2
      obtain ⟨v2, hv2, rfl⟩ := List.mem_map.mp hrd
      have hv1T : v1 ∈ odoTrace ((L.map Prod.snd).take m) :=
        split_equally_getD_subset hi hv1
      have hl1 : v1.length = ((L.map Prod.fst).take m).length := by
        have h1 := (odoTrace_valid hv1T).length_eq
        simp only [List.length_take] at h1 ⊢
        omega
      have hl2 : v2.length = ((L.map Prod.fst).drop m).length := by
        have h2 := (odoTrace_valid hv2).length_eq
        simp only [List.length_drop] at h2 ⊢
        omega
      refine ⟨v1, hv1, v2, hv2, ?_⟩
      rw [dictOr_buildFactors hndps hl1 hl2, List.take_append_drop]
    · rintro ⟨v1, hv1, v2, hv2, rfl⟩
      have hv1T : v1 ∈ odoTrace ((L.map Prod.snd).take m) :=
        split_equally_getD_subset hi hv1
      have hl1 : v1.length = ((L.map Prod.fst).take m).length := by
        have h1 := (odoTrace_valid hv1T).length_eq
        simp only [List.length_take] at h1 ⊢
        omega
      have hl2 : v2.length = ((L.map Prod.fst).drop m).length := by
        have h2 := (odoTrace_valid hv2).length_eq
        simp only [List.length_drop] at h2 ⊢
        omega
      rw [List.mem_flatMap]
      refine ⟨buildFactors ((L.map Prod.fst).take m) v1, ?_, ?_⟩
      · rw [hdivP, split_equally_map_getD _ _ K i hi]
        exact List.mem_map_of_mem _ hv1
      · rw [hdivR]
        have heq : buildFactors (L.map Prod.fst) (v1 ++ v2) =
            standardForm (dictOr (buildFactors ((L.map Prod.fst).take m) v1)
              (buildFactors ((L.map Prod.fst).drop m) v2)) := by
          rw [dictOr_buildFactors hndps hl1 hl2, List.take_append_drop]
        rw [heq]
        exact List.mem_map_of_mem _ (List.mem_map_of_mem _ hv2)
  refine ⟨fun i => ((split_equally (divisorsList (L.take m)) K).getD i []).flatMap
      (fun kd => (divisorsList (L.drop m)).map
        (fun rd => standardForm (dictOr kd rd))),
    hpe, ?_, ?_, ?_⟩
  · intro i hi d hd
    obtain ⟨v1, hv1, v2, hv2, rfl⟩ := (hchar i hi d).mp hd
    have hval : List.Forall₂ (· ≤ ·) (v1 ++ v2) (L.map Prod.snd) := by
      have h1 := odoTrace_valid (split_equally_getD_subset hi hv1)
      have h2 := odoTrace_valid hv2
      have h3 := List.rel_append h1 h2
      exact List.take_append_drop m (L.map Prod.snd) ▸ h3
    exact WF_buildFactors hwf hval
  · intro i j hi hj hij d hdi hdj
    obtain ⟨v1, hv1, v2, hv2, heq1⟩ := (hchar i hi d).mp hdi
    obtain ⟨w1, hw1, w2, hw2, heq2⟩ := (hchar j hj d).mp hdj
    have h1 := (odoTrace_valid (split_equally_getD_subset hi hv1)).length_eq
    have h2 := (odoTrace_valid hv2).length_eq
    have h3 := (odoTrace_valid (split_equally_getD_subset hj hw1)).length_eq
    have h4 := (odoTrace_valid hw2).length_eq
    have hveq : v1 ++ v2 = w1 ++ w2 := by
      refine buildFactors_inj (show (L.map Prod.fst).Nodup from WF_keys_nodup hwf)
        ?_ ?_ (heq1.symm.trans heq2)
      · simp only [List.length_append, List.length_take, List.length_drop]
          at h1 h2 ⊢
        omega
      · simp only [List.length_append, List.length_take, List.length_drop]
          at h3 h4 ⊢
        omega
    have hlen13 : v1.length = w1.length := by
      simp only [List.length_take] at h1 h3
      omega
    have hv1w1 : v1 = w1 := by
      have hc := congrArg (List.take v1.length) hveq
      rwa [List.take_left, hlen13, List.take_left] at hc
    rw [← hv1w1] at hw1
    exact absurd hw1
      (split_equally_disjoint (odoTrace_nodup _) hK hi hj hij hv1)
  · intro d
    constructor
    · intro hd
      obtain ⟨v, hv, rfl⟩ := List.mem_map.mp (show d ∈
          (odoTrace (L.map Prod.snd)).map (buildFactors (L.map Prod.fst)) from hd)
      have hval := odoTrace_valid hv
      have hv1 : v.take m ∈ odoTrace ((L.map Prod.snd).take m) :=
        (mem_odoTrace_iff _ _).mpr (List.forall₂_take m hval)
      have hv2 : v.drop m ∈ odoTrace ((L.map Prod.snd).drop m) :=
        (mem_odoTrace_iff _ _).mpr (List.forall₂_drop m hval)
      obtain ⟨i, hi, hslice⟩ := (split_equally_cover hK (v.take m)).mp hv1
      refine ⟨i, hi, ?_⟩
      refine (hchar i hi _).mpr ⟨v.take m, hslice, v.drop m, hv2, ?_⟩
      rw [List.take_append_drop]
    · rintro ⟨i, hi, hdi⟩
      obtain ⟨v1, hv1, v2, hv2, rfl⟩ := (hchar i hi d).mp hdi
      have hval : List.Forall₂ (· ≤ ·) (v1 ++ v2) (L.map Prod.snd) := by
        have h1 := odoTrace_valid (split_equally_getD_subset hi hv1)
        have h2 := odoTrace_valid hv2
        have h3 := List.rel_append h1 h2
        exact List.take_append_drop m (L.map Prod.snd) ▸ h3
      exact List.mem_map_of_mem _ ((mem_odoTrace_iff _ _).mpr hval)

theorem isValidPrimeFac_ne_none (L : FactorsList) (k lv : ℕ) (B : ℕ → ℕ)
    (d : FactorsList) (hd : WF d) (hB : 2 ≤ B (value d + 1)) :
    isValidPrimeFac L k lv B d ≠ none := by
  unfold isValidPrimeFac
  split
  · exact fun hc => Option.noConfusion hc
  · split
    · unfold fk_is_prime
      split
      · exact fun hc => Option.noConfusion hc
      · split
        · exact fun hc => Option.noConfusion hc
        · refine fkLoop_not_none ?_ hd ?_ _ _ ?_
          · have := WF_value_pos hd
            omega
          · omega
          · intro _ hemp
            have hlen := congrArg List.length hemp
            rw [List.length_range'] at hlen
            simp only [List.length_nil] at hlen
            omega
    · exact fun hc => Option.noConfusion hc

theorem collectPrimesFac_some (L : FactorsList) (k lv : ℕ) (B : ℕ → ℕ) :
    ∀ ds : List FactorsList, (∀ d ∈ ds, isValidPrimeFac L k lv B d ≠ none) →
    ∃ s, collectPrimesFac L k lv B ds = some s ∧
      ∀ p, p ∈ s ↔ ∃ d ∈ ds, isValidPrimeFac L k lv B d = some true ∧
        p = value d + 1 := by
  intro ds
  induction ds with
  | nil => exact fun _ => ⟨[], rfl, by simp⟩
  | cons d ds ih =>
    intro h
    obtain ⟨s, hs, hmem⟩ := ih (fun e he => h e (List.mem_cons_of_mem d he))
    cases hv : isValidPrimeFac L k lv B d with
    | none => exact absurd hv (h d (List.mem_cons_self d ds))
    | some b =>
      refine ⟨if b then (value d + 1) :: s else s, ?_, ?_⟩
      · conv_lhs => unfold collectPrimesFac
        rw [hv, hs]
        rfl
      · intro p
        constructor
        · intro hp
          by_cases hb : b = true
          · subst hb
            rcases List.mem_cons.mp (by simpa using hp) with heq | hps
            · exact ⟨d, List.mem_cons_self d ds, hv, heq⟩
            · obtain ⟨e, he, hval2, hpd⟩ := (hmem p).mp hps
              exact ⟨e, List.mem_cons_of_mem d he, hval2, hpd⟩
          · have hb2 : b = false := Bool.eq_false_iff.mpr hb
            subst hb2
            simp only [Bool.false_eq_true, if_false] at hp
            obtain ⟨e, he, hval2, hpd⟩ := (hmem p).mp hp
            exact ⟨e, List.mem_cons_of_mem d he, hval2, hpd⟩
        · rintro ⟨e, he, hval2, rfl⟩
          rcases List.mem_cons.mp he with heq | hes
          · subst heq
            rw [hval2] at hv
            have hb : b = true := (Option.some.inj hv).symm
            subst hb
            simp
          · have hps : value e + 1 ∈ s := (hmem _).mpr ⟨e, hes, hval2, rfl⟩
            by_cases hb : b = true
            · subst hb
              simp [hps]
            · have hb2 : b = false := Bool.eq_false_iff.mpr hb
              subst hb2
              simpa using hps

/-- C4 (corrected): the partitioned calls are NOT a partition of
`build_primes_set(L, k)` (see the counterexample); what does hold is that for
a well-formed nonempty Factorization L with at least K divisors and any
per-prime witness bounds B ≥ 2, every call
`build_primes_set_partition(L, k, i, K)` for i < K succeeds, the K result
sets are pairwise disjoint, and their union is the `_is_valid_prime` filter
over ALL divisors of L (the partitioned variant ignores the k-th-root bound
of the unpartitioned `build_primes_set`). -/
theorem build_primes_set_partition_amended (L : FactorsList) (k K : ℕ) (B : ℕ → ℕ)
    (hwf : WF L) (hL : L ≠ []) (hK : 1 ≤ K) (hKc : K ≤ divisors_count L)
    (hB : ∀ p, 2 ≤ B p) :
    (∀ i, i < K → ∃ si, build_primes_set_partition L k i K B = some si) ∧
    ∃ full, collectPrimesFac L k (value L) B (divisorsList L) = some full ∧
      (∀ i j si sj, i < K → j < K → i ≠ j →
        build_primes_set_partition L k i K B = some si →
        build_primes_set_partition L k j K B = some sj →
        ∀ p, p ∈ si → p ∉ sj) ∧
      (∀ p, p ∈ full ↔ ∃ i si, i < K ∧
        build_primes_set_partition L k i K B = some si ∧ p ∈ si) := by
  obtain ⟨D, hDsome, hDwf, hDdisj, hDcover⟩ := partition_divisors_spec hwf hL hK hKc
  obtain ⟨full, hfull, hfullmem⟩ := collectPrimesFac_some L k (value L) B
    (divisorsList L) (fun d hd => by
      obtain ⟨i, hi, hdi⟩ := (hDcover d).mp hd
      exact isValidPrimeFac_ne_none L k (value L) B d (hDwf i hi d hdi) (hB _))
  have hpart : ∀ i, i < K → ∃ si, build_primes_set_partition L k i K B = some si ∧
      ∀ p, p ∈ si ↔ ∃ d ∈ D i, isValidPrimeFac L k (value L) B d = some true ∧
        p = value d + 1 := by
    intro i hi
    obtain ⟨si, hsi, hsimem⟩ := collectPrimesFac_some L k (value L) B (D i)
      (fun d hd => isValidPrimeFac_ne_none L k (value L) B d (hDwf i hi d hd) (hB _))
    refine ⟨si, ?_, hsimem⟩
    unfold build_primes_set_partition
    rw [hDsome i]
    exact hsi
  refine ⟨fun i hi => ?_, full, hfull, ?_, ?_⟩
  · obtain ⟨si, hsi, _⟩ := hpart i hi
    exact ⟨si, hsi⟩
  · intro i j si sj hi hj hij hsi hsj p hpsi hpsj
    obtain ⟨si2, hsi2, hmi⟩ := hpart i hi
    obtain ⟨sj2, hsj2, hmj⟩ := hpart j hj
    have hei : si = si2 := Option.some.inj (hsi.symm.trans hsi2)
    have hej : sj = sj2 := Option.some.inj (hsj.symm.trans hsj2)
    rw [hei] at hpsi
    rw [hej] at hpsj
    obtain ⟨d, hd, hdv, hpd⟩ := (hmi p).mp hpsi
    obtain ⟨e, he, hev, hpe2⟩ := (hmj p).mp hpsj
    have hvv : value d = value e := by omega
    have hde : d = e := value_inj (hDwf i hi d hd) (hDwf j hj e he) hvv
    rw [hde] at hd
    exact hDdisj i j hi hj hij e hd he
  · intro p
    constructor
    · intro hp
      obtain ⟨d, hd, hdv, hpd⟩ := (hfullmem p).mp hp
      obtain ⟨i, hi, hdi⟩ := (hDcover d).mp hd
      obtain ⟨si, hsi, hmi⟩ := hpart i hi
      exact ⟨i, si, hi, hsi, (hmi p).mpr ⟨d, hdi, hdv, hpd⟩⟩
    · rintro ⟨i, si, hi, hsi, hpsi⟩
      obtain ⟨si2, hsi2, hmi⟩ := hpart i hi
      have hei : si = si2 := Option.some.inj (hsi.symm.trans hsi2)
      rw [hei] at hpsi
      obtain ⟨d, hdi, hdv, hpd⟩ := (hmi p).mp hpsi
      exact (hfullmem p).mpr ⟨d, (hDcover d).mpr ⟨i, hi, hdi⟩, hdv, hpd⟩

/-- Witness for the corrected C4 at L = 2³ (value 8), order k = 2, K = 2
partitions, witness bound B = 2. -/
theorem build_primes_set_partition_amended_witness :
    (∀ i, i < 2 → ∃ si,
      build_primes_set_partition [(2, 3)] 2 i 2 (fun _ => 2) = some si) ∧
    ∃ full, collectPrimesFac [(2, 3)] 2 (value [(2, 3)]) (fun _ => 2)
        (divisorsList [(2, 3)]) = some full ∧
      (∀ i j si sj, i < 2 → j < 2 → i ≠ j →
        build_primes_set_partition [(2, 3)] 2 i 2 (fun _ => 2) = some si →
        build_primes_set_partition [(2, 3)] 2 j 2 (fun _ => 2) = some sj →
        ∀ p, p ∈ si → p ∉ sj) ∧
      (∀ p, p ∈ full ↔ ∃ i si, i < 2 ∧
        build_primes_set_partition [(2, 3)] 2 i 2 (fun _ => 2) = some si ∧
        p ∈ si) :=
  build_primes_set_partition_amended [(2, 3)] 2 2 (fun _ => 2) (by decide)
    (by decide) (by decide) (by decide) (fun _ => Nat.le_refl 2)

end Pseudoprimes

